import Mathlib

/-!
Verification of the core data model of the Tuido task/topics/notes
application (`src/model/tasks_model.py`, `src/model/topics_model.py`,
`src/controller/tasks_controller.py`, `src/controller/topics_controller.py`,
`src/controller/notes_controller.py`) against its natural-language
specification.

Python values are embedded shallowly:

* Python `dict`s (which preserve insertion order) become association lists
  `List (κ × α)` with first-match lookup (`alGet`), in-place update
  (`alSet`) and `pop` (`alErase`);
* Python strings are compared and lowercased through their code points
  (`strCodes`, `lowerCode`), matching CPython's code-point-wise
  comparison and ASCII lowering of the identifiers and dates that occur
  in this program;
* Python `list.sort`, a stable sort, is embedded as `List.mergeSort`
  (stable, sorted, a permutation - the exact guarantees CPython gives);
* fallible operations return `Option`, or carry the partially mutated
  state in an explicit result when an exception can escape mid-mutation;
* object identity of topic records (the Topics store aliases one record
  object from two containers) is embedded with an explicit heap
  `ref ↦ record` plus reference lists, see `TopicsState`.
-/

namespace Tuido

/-! ### Association lists: the embedding of Python `dict` -/

/-- First-match lookup, `d.get(k)` / `d[k]` on a Python dict. -/
def alGet {κ α : Type} [DecidableEq κ] : List (κ × α) → κ → Option α
  | [], _ => none
  | (k, v) :: r, q => if q = k then some v else alGet r q

/-- In-place update-or-append, `d[k] = v` on a Python dict. -/
def alSet {κ α : Type} [DecidableEq κ] : List (κ × α) → κ → α → List (κ × α)
  | [], q, w => [(q, w)]
  | (k, v) :: r, q, w => if q = k then (k, w) :: r else (k, v) :: alSet r q w

/-- Key list of a dict, `list(d.keys())`. -/
def alKeys {κ α : Type} (l : List (κ × α)) : List κ := l.map Prod.fst

/-- Remove the first entry with the given key, the mutation done by
`d.pop(k, None)`; `alGet` gives the returned value. -/
def alErase {κ α : Type} [DecidableEq κ] : List (κ × α) → κ → List (κ × α)
  | [], _ => []
  | (k, v) :: r, q => if q = k then r else (k, v) :: alErase r q

theorem alGet_alSet_self {κ α : Type} [DecidableEq κ] (l : List (κ × α)) (k : κ) (v : α) :
    alGet (alSet l k v) k = some v := by
  induction l with
  | nil => simp [alSet, alGet]
  | cons p r ih =>
    obtain ⟨k', v'⟩ := p
    by_cases h : k = k' <;> simp [alSet, alGet, h, ih]

theorem alGet_alSet_ne {κ α : Type} [DecidableEq κ] (l : List (κ × α)) (k q : κ) (v : α)
    (h : q ≠ k) : alGet (alSet l k v) q = alGet l q := by
  induction l with
  | nil => simp [alSet, alGet, h]
  | cons p r ih =>
    obtain ⟨k', v'⟩ := p
    by_cases hk : k = k'
    · subst hk; simp [alSet, alGet, h]
    · by_cases hq : q = k' <;> simp [alSet, alGet, hk, hq, ih]

theorem alKeys_alSet {κ α : Type} [DecidableEq κ] (l : List (κ × α)) (k : κ) (v : α) :
    alKeys (alSet l k v) = if k ∈ alKeys l then alKeys l else alKeys l ++ [k] := by
  induction l with
  | nil => simp [alSet, alKeys]
  | cons p r ih =>
    obtain ⟨k', v'⟩ := p
    by_cases h : k = k'
    · subst h; simp [alSet, alKeys]
    · simp [alSet, alKeys, h, Ne.symm h] at ih ⊢
      rw [ih]
      by_cases hm : k ∈ r.map Prod.fst <;> simp [hm, h]

/-! ### Python text primitives, on code points -/

/-- Code points of a string, the view CPython compares strings by. -/
def strCodes (s : String) : List Nat := s.data.map Char.toNat

/-- ASCII lowering of one code point, `str.lower` on the ASCII range that
this program's descriptions use. -/
def lowerCode (n : Nat) : Nat := if 65 ≤ n ∧ n ≤ 90 then n + 32 else n

/-- The code points of `s.lower()`. -/
def strLower (s : String) : List Nat := (strCodes s).map lowerCode

/-- Lexicographic `≤` on code-point lists: CPython string comparison. -/
def natListLE : List Nat → List Nat → Bool
  | [], _ => true
  | _ :: _, [] => false
  | a :: l, b :: m => if a < b then true else if a = b then natListLE l m else false

theorem natListLE_total (x y : List Nat) : natListLE x y || natListLE y x := by
  induction x generalizing y with
  | nil => simp [natListLE]
  | cons a l ih =>
    cases y with
    | nil => simp [natListLE]
    | cons b m =>
      rcases Nat.lt_trichotomy a b with h | h | h
      · simp [natListLE, h]
      · subst h
        simpa [natListLE] using ih m
      · simp [natListLE, h, Nat.lt_asymm h, Nat.ne_of_gt h, (Nat.ne_of_gt h).symm]

theorem natListLE_trans (x y z : List Nat) (hxy : natListLE x y) (hyz : natListLE y z) :
    natListLE x z := by
  induction x generalizing y z with
  | nil => simp [natListLE]
  | cons a l ih =>
    cases y with
    | nil => simp [natListLE] at hxy
    | cons b m =>
      cases z with
      | nil => simp [natListLE] at hyz
      | cons c o =>
        simp only [natListLE] at hxy hyz ⊢
        by_cases hab : a < b
        · by_cases hbc : b < c
          · simp [Nat.lt_trans hab hbc]
          · simp [hab] at hxy
            by_cases hbc' : b = c
            · subst hbc'; simp [hab]
            · simp [hbc, hbc'] at hyz
        · by_cases hab' : a = b
          · subst hab'
            simp [hab] at hxy
            by_cases hbc : a < c
            · simp [hbc]
            · by_cases hbc' : a = c
              · subst hbc'
                simp [hbc] at hyz ⊢
                exact ih m o hxy hyz
              · simp [hbc, hbc'] at hyz
          · simp [hab, hab'] at hxy

/-! ### Date handling

The program converts date strings with
`pylightlib.msc.DateTime.date_to_timestamp(date, english_format=True)`,
a helper from an external library that is not part of this repository.

Modelled from the spec: "date-to-timestamp conversion must treat
empty/invalid date strings as 'absent' (maps to sentinel far-future,
specifically a fixed date arbitrarily far ahead, e.g. year 3000), never
as an error", with dates in ISO form `YYYY-MM-DD`.  A valid date string
is three dash-separated digit groups forming a plausible calendar date;
its timestamp is embedded as the order-isomorphic encoding
`y * 10000 + m * 100 + d` (only the relative order of timestamps is ever
used by the program). -/

def isDigitCode (n : Nat) : Bool := 48 ≤ n && n ≤ 57

/-- Split a code-point list on the code point of a dash. -/
def splitOnDash : List Nat → List (List Nat)
  | [] => [[]]
  | x :: r =>
    if x = 45 then [] :: splitOnDash r
    else
      match splitOnDash r with
      | [] => [[x]]
      | g :: gs => (x :: g) :: gs

/-- Numeric value of a digit group. -/
def digitsVal (l : List Nat) : Nat := l.foldl (fun a n => a * 10 + (n - 48)) 0

/-- Parse a nonempty all-digit group. -/
def parseDigits (l : List Nat) : Option Nat :=
  if l ≠ [] ∧ l.all isDigitCode then some (digitsVal l) else none

/-- Order-isomorphic stand-in for the POSIX timestamp of a calendar date. -/
def dateEncode (y m d : Nat) : Nat := y * 10000 + m * 100 + d

/-- Modelled from the spec: `DateTime.date_to_timestamp(s, english_format=True)`
from the external `pylightlib` package - `some` timestamp for a parseable
`YYYY-MM-DD` date, `none` (Python falsy) for an empty or unparseable string. -/
def date_to_timestamp (s : String) : Option Nat :=
  match splitOnDash (strCodes s) with
  | [ys, ms, ds] =>
    match parseDigits ys, parseDigits ms, parseDigits ds with
    | some y, some m, some d =>
      if 1 ≤ y ∧ y ≤ 9999 ∧ 1 ≤ m ∧ m ≤ 12 ∧ 1 ≤ d ∧ d ≤ 31 then
        some (dateEncode y m d)
      else none
    | _, _, _ => none
  | _ => none

/-- The far-future sentinel `datetime(3000, 1, 1).timestamp()` of
`Tasks.sort_tasks` (`tasks_model.py:139`), in the same encoding. -/
def MAX_DATE : Nat := dateEncode 3000 1 1

/-- Modelled from the spec: `DateTime.date_diff` of the external
`pylightlib` package, the signed day offset between two timestamps; the
claims never inspect its value, only that it is recomputed. -/
def date_diff (ts today : Nat) : Int := (ts : Int) - (today : Int)

/-! ### The Task data model (`src/model/tasks_model.py`) -/

/-- Enum `TaskPriority` (`tasks_model.py:15`). -/
inductive TaskPriority
  | HIGH
  | MEDIUM
  | LOW
  | NONE
deriving DecidableEq, Repr

/-- The `.value` of each `TaskPriority` member. -/
def TaskPriority.value : TaskPriority → Nat
  | .HIGH => 1
  | .MEDIUM => 2
  | .LOW => 3
  | .NONE => 4

/-- Dataclass `Task` (`tasks_model.py:26`). -/
structure Task where
  column_name : String
  description : String
  priority : TaskPriority
  start_date : String
  end_date : String
  days_to_start : Option Int
  days_to_end : Option Int
deriving DecidableEq, Repr

/-- The tasks mapping `Tasks.tasks : column name ↦ ordered task list`. -/
abbrev TasksMap : Type := List (String × List Task)

/-- `Tasks.num_to_priority` (`tasks_model.py:223`). -/
def num_to_priority (n : Int) : TaskPriority :=
  if n = 1 then .HIGH
  else if n = 2 then .MEDIUM
  else if n = 3 then .LOW
  else .NONE

/-- `Tasks.days_to` (`tasks_model.py:271`): day offset from today, `none`
when the date does not convert (the model's timestamps are never the
falsy `0`, so Python's truthiness test is exactly the `none` test). -/
def days_to (today : Nat) (date_str : String) : Option Int :=
  match date_to_timestamp date_str with
  | some ts => some (date_diff ts today)
  | none => none

/-- Start-date component of the sort key:
`DateTime.date_to_timestamp(task.start_date) or MAX_DATE`
(`tasks_model.py:144`-`145`). -/
def startKey (t : Task) : Nat := (date_to_timestamp t.start_date).getD MAX_DATE

/-- End-date component of the sort key (`tasks_model.py:146`-`147`). -/
def endKey (t : Task) : Nat := (date_to_timestamp t.end_date).getD MAX_DATE

/-- The sort key tuple of `Tasks.sort_tasks` (`tasks_model.py:142`-`148`):
`(priority.value, start timestamp or MAX_DATE, end timestamp or MAX_DATE,
description.lower())`. -/
def taskSortKey (t : Task) : Nat × Nat × Nat × List Nat :=
  (t.priority.value, startKey t, endKey t, strLower t.description)

/-- Python tuple `≤`, lexicographic, on the sort key shape. -/
def tupLE (x y : Nat × Nat × Nat × List Nat) : Bool :=
  if x.1 < y.1 then true
  else if x.1 = y.1 then
    if x.2.1 < y.2.1 then true
    else if x.2.1 = y.2.1 then
      if x.2.2.1 < y.2.2.1 then true
      else if x.2.2.1 = y.2.2.1 then natListLE x.2.2.2 y.2.2.2
      else false
    else false
  else false

/-- The total order `Tasks.sort_tasks` sorts by. -/
def taskLE (a b : Task) : Bool := tupLE (taskSortKey a) (taskSortKey b)

theorem tupLE_total (x y : Nat × Nat × Nat × List Nat) : tupLE x y || tupLE y x := by
  obtain ⟨a, b, c, d⟩ := x
  obtain ⟨a', b', c', d'⟩ := y
  simp only [tupLE]
  rcases Nat.lt_trichotomy a a' with h | h | h
  · simp [h]
  · subst h
    rcases Nat.lt_trichotomy b b' with h2 | h2 | h2
    · simp [h2]
    · subst h2
      rcases Nat.lt_trichotomy c c' with h3 | h3 | h3
      · simp [h3]
      · subst h3
        simpa using natListLE_total d d'
      · simp [h3, Nat.lt_asymm h3, Nat.ne_of_gt h3, (Nat.ne_of_gt h3).symm]
    · simp [h2, Nat.lt_asymm h2, Nat.ne_of_gt h2, (Nat.ne_of_gt h2).symm]
  · simp [h, Nat.lt_asymm h, Nat.ne_of_gt h, (Nat.ne_of_gt h).symm]

theorem tupLE_trans (x y z : Nat × Nat × Nat × List Nat)
    (hxy : tupLE x y) (hyz : tupLE y z) : tupLE x z := by
  obtain ⟨a, b, c, d⟩ := x
  obtain ⟨a', b', c', d'⟩ := y
  obtain ⟨a'', b'', c'', d''⟩ := z
  simp only [tupLE] at hxy hyz ⊢
  rcases Nat.lt_trichotomy a a' with h | h | h
  · rcases Nat.lt_trichotomy a' a'' with h2 | h2 | h2
    · simp [Nat.lt_trans h h2]
    · subst h2; simp [h]
    · simp [h2, Nat.lt_asymm h2, Nat.ne_of_gt h2] at hyz
  · subst h
    rcases Nat.lt_trichotomy a a'' with h2 | h2 | h2
    · simp [h2]
    · subst h2
      simp only [Nat.lt_irrefl, if_false, if_true, reduceIte] at hxy hyz ⊢
      rcases Nat.lt_trichotomy b b' with h3 | h3 | h3
      · rcases Nat.lt_trichotomy b' b'' with h4 | h4 | h4
        · simp [Nat.lt_trans h3 h4]
        · subst h4; simp [h3]
        · simp [h4, Nat.lt_asymm h4, Nat.ne_of_gt h4] at hyz
      · subst h3
        rcases Nat.lt_trichotomy b b'' with h4 | h4 | h4
        · simp [h4]
        · subst h4
          simp only [Nat.lt_irrefl, if_false, if_true, reduceIte] at hxy hyz ⊢
          rcases Nat.lt_trichotomy c c' with h5 | h5 | h5
          · rcases Nat.lt_trichotomy c' c'' with h6 | h6 | h6
            · simp [Nat.lt_trans h5 h6]
            · subst h6; simp [h5]
            · simp [h6, Nat.lt_asymm h6, Nat.ne_of_gt h6] at hyz
          · subst h5
            rcases Nat.lt_trichotomy c c'' with h6 | h6 | h6
            · simp [h6]
            · subst h6
              simp only [Nat.lt_irrefl, if_false, if_true, reduceIte] at hxy hyz ⊢
              exact natListLE_trans d d' d'' hxy hyz
            · simp [h6, Nat.lt_asymm h6, Nat.ne_of_gt h6] at hyz
          · simp [h5, Nat.lt_asymm h5, Nat.ne_of_gt h5] at hxy
        · simp [h4, Nat.lt_asymm h4, Nat.ne_of_gt h4] at hyz
      · simp [h3, Nat.lt_asymm h3, Nat.ne_of_gt h3] at hxy
    · simp [h2, Nat.lt_asymm h2, Nat.ne_of_gt h2] at hyz
  · simp [h, Nat.lt_asymm h, Nat.ne_of_gt h] at hxy

theorem taskLE_total (a b : Task) : taskLE a b || taskLE b a := tupLE_total _ _

theorem taskLE_trans (a b c : Task) (h1 : taskLE a b) (h2 : taskLE b c) : taskLE a c :=
  tupLE_trans _ _ _ h1 h2

/-- `Tasks.sort_tasks` (`tasks_model.py:134`): every column's list is
stable-sorted in place by `taskLE`; `List.mergeSort` carries exactly the
stable-sort contract of CPython's `list.sort`. -/
def sort_tasks (tasks : TasksMap) : TasksMap :=
  tasks.map (fun p => (p.1, p.2.mergeSort taskLE))

/-- `Tasks.delete_task` (`tasks_model.py:208`): delete by position when
the column exists and the (possibly negative) index passes the
`0 <= task_index < len` guard; otherwise leave the mapping untouched. -/
def delete_task (tasks : TasksMap) (column_name : String) (task_index : Int) : TasksMap :=
  match alGet tasks column_name with
  | none => tasks
  | some l =>
    if 0 ≤ task_index ∧ task_index < (l.length : Int) then
      alSet tasks column_name (l.eraseIdx task_index.toNat)
    else tasks

/-! ### Tasks persistence (`tasks_model.py:100`-`132`, `292`-`326`) -/

/-- A JSON scalar as it occurs in the persisted tasks file: the cleaned
records hold strings and the integer priority. -/
inductive JsonVal
  | jstr (s : String)
  | jint (n : Int)
deriving DecidableEq, Repr

/-- One raw task record of the persisted column ↦ record-list mapping. -/
abbrev RawTask : Type := List (String × JsonVal)

/-- Python `int(...)` applied to a JSON scalar: identity on integers,
digit parsing (with optional sign) on strings, `none` when it raises. -/
def jsonToInt : JsonVal → Option Int
  | .jint n => some n
  | .jstr s =>
    match strCodes s with
    | 45 :: rest => (parseDigits rest).map (fun n => -(n : Int))
    | l => (parseDigits l).map (fun n => (n : Int))

/-- String content of a JSON scalar; `none` on the integer case, which the
embedded `Task` fields cannot hold (the program would only fail later, at
`description.lower()` inside the sort; the persisted files written by
`save_to_file` always hold strings here). -/
def JsonVal.asStr : JsonVal → Option String
  | .jstr s => some s
  | .jint _ => none

/-- Map a fallible function over a list, failing when any element fails
(the effect of a Python comprehension that can raise). -/
def optMapM {α β : Type} (f : α → Option β) : List α → Option (List β)
  | [] => some []
  | a :: l =>
    match f a, optMapM f l with
    | some b, some bs => some (b :: bs)
    | _, _ => none

/-- `Tasks.create_task_object_from_raw_data` (`tasks_model.py:151`):
build a `Task` from one raw record; `none` when a key is missing or the
priority does not cast to an integer. -/
def create_task_object_from_raw_data (today : Nat) (column_name : String)
    (task_dict : RawTask) : Option Task :=
  match (alGet task_dict "description").bind JsonVal.asStr,
        (alGet task_dict "priority").bind jsonToInt,
        (alGet task_dict "start_date").bind JsonVal.asStr,
        (alGet task_dict "end_date").bind JsonVal.asStr with
  | some desc, some prio, some sd, some ed =>
    some { column_name := column_name
           description := desc
           priority := num_to_priority prio
           start_date := sd
           end_date := ed
           days_to_start := days_to today sd
           days_to_end := days_to today ed }
  | _, _, _, _ => none

/-- The per-column loop of `Tasks.generate_tasks_dict`
(`tasks_model.py:124`-`130`): each raw column replaces (or creates) the
entry of the in-memory mapping. -/
def build_columns (today : Nat) :
    TasksMap → List (String × List RawTask) → Option TasksMap
  | tasks, [] => some tasks
  | tasks, (col, recs) :: rest =>
    match optMapM (create_task_object_from_raw_data today col) recs with
    | none => none
    | some l => build_columns today (alSet tasks col l) rest

/-- `Tasks.generate_tasks_dict` (`tasks_model.py:115`): rebuild the
columns named by the raw data, then `sort_tasks`. -/
def generate_tasks_dict (today : Nat) (tasks : TasksMap)
    (tasks_raw : List (String × List RawTask)) : Option TasksMap :=
  (build_columns today tasks tasks_raw).map sort_tasks

/-- The record comprehension of `Tasks.get_cleaned_tasks_dict`
(`tasks_model.py:318`-`323`). -/
def clean_task (t : Task) : RawTask :=
  [("description", .jstr t.description),
   ("priority", .jint (t.priority.value : Int)),
   ("start_date", .jstr t.start_date),
   ("end_date", .jstr t.end_date)]

/-- `Tasks.get_cleaned_tasks_dict` (`tasks_model.py:304`). -/
def get_cleaned_tasks_dict (tasks : TasksMap) : List (String × List RawTask) :=
  tasks.map (fun p => (p.1, p.2.map clean_task))

/-- `Tasks.save_to_file` (`tasks_model.py:292`): re-sort, then dump the
cleaned mapping; the pair is (state after the call, written document). -/
def save_to_file (tasks : TasksMap) : TasksMap × List (String × List RawTask) :=
  (sort_tasks tasks, get_cleaned_tasks_dict (sort_tasks tasks))

/-! ### Task column transfer (`src/controller/tasks_controller.py`) -/

/-- Enum `TaskMoveDirection` (`tasks_controller.py:21`). -/
inductive TaskMoveDirection
  | LEFT
  | RIGHT
deriving DecidableEq, Repr

/-- Python `list.index`: index of the first occurrence, `none` when the
`ValueError` is raised. -/
def pyIndexOf {α : Type} [DecidableEq α] : List α → α → Option Nat
  | [], _ => none
  | a :: l, q => if a = q then some 0 else (pyIndexOf l q).map (· + 1)

/-- Python `l[i]` on a list: nonnegative indexing from the front, negative
indexing from the back, `none` when the `IndexError` is raised. -/
def pyListGet {α : Type} (l : List α) (i : Int) : Option α :=
  let j : Int := if i < 0 then (l.length : Int) + i else i
  if h : 0 ≤ j ∧ j < (l.length : Int) then
    some (l.get ⟨j.toNat, by omega⟩)
  else none

/-- `TasksController.move_task` (`tasks_controller.py:291`): clamp the
target column at the board boundary, abort (`return`) when the clamp
leaves the task in place or the source column is empty, otherwise delete
from the source column, rewrite `column_name`, append to the target
column, re-sort everything and save.  `none` embeds an escaped exception
(unknown source column, missing source key, bad selected index). -/
def move_task (column_names : List String) (tasks : TasksMap)
    (source_column_name : String) (selected_task_index : Int)
    (move_direction : TaskMoveDirection) : Option TasksMap :=
  match pyIndexOf column_names source_column_name with
  | none => none
  | some source_column_index =>
    let target_column_index : Nat :=
      match move_direction with
      | .LEFT => source_column_index - 1
      | .RIGHT => min (source_column_index + 1) (column_names.length - 1)
    match column_names.get? target_column_index with
    | none => none
    | some target_column_name =>
      if source_column_index = target_column_index then some tasks
      else
        match alGet tasks source_column_name with
        | none => none
        | some source_list =>
          if source_list.length = 0 then some tasks
          else
            match pyListGet source_list selected_task_index with
            | none => none
            | some task_to_move =>
              let tasks1 := delete_task tasks source_column_name selected_task_index
              let moved := { task_to_move with column_name := target_column_name }
              let tasks2 :=
                if (alGet tasks1 target_column_name).isSome then tasks1
                else tasks1 ++ [(target_column_name, [])]
              let tasks3 :=
                alSet tasks2 target_column_name
                  ((alGet tasks2 target_column_name).getD [] ++ [moved])
              some (save_to_file (sort_tasks tasks3)).1

/-! ### The Topics store (`src/model/topics_model.py`)

A topic is a Python dict `field name ↦ scalar`.  The store keeps the same
record objects in two containers, the ordered list `data` and the index
`topics_by_id`, and `update_topic` mutates an object that both may still
alias - so records live on an explicit heap and the containers hold
references.  Python compares dicts by value (`list.remove`, `in`), which
`recEquiv` embeds; float-valued fields do not occur in any claim and are
left out of the scalar type. -/

/-- A scalar topic field value (`str | int | bool`). -/
inductive FieldValue
  | vStr (s : String)
  | vInt (n : Int)
  | vBool (b : Bool)
deriving DecidableEq, Repr

/-- A topic record: an insertion-ordered dict of field values. -/
abbrev Record : Type := List (String × FieldValue)

/-- Python `==` on dicts: same keys with equal values, order-blind. -/
def recEquiv (r1 r2 : Record) : Bool :=
  (r1.all fun p => decide (alGet r2 p.1 = alGet r1 p.1)) &&
  (r2.all fun p => decide (alGet r1 p.1 = alGet r2 p.1))

/-- Python `dict.update`: merge the second dict into the first in place,
existing keys keep their position, new keys append in source order. -/
def recUpdate (dst src : Record) : Record :=
  src.foldl (fun d p => alSet d p.1 p.2) dst

/-- Python `int(...)` on a topic field value (`int(topic['id'])`): `none`
when the cast raises. -/
def pyInt : FieldValue → Option Int
  | .vInt n => some n
  | .vBool b => some (if b then 1 else 0)
  | .vStr s =>
    match strCodes s with
    | 45 :: rest => (parseDigits rest).map (fun n => -(n : Int))
    | l => (parseDigits l).map (fun n => (n : Int))

/-- The Topic singleton state: `data` and `topics_by_id` hold references
into `heap`; `nextRef` is the allocation counter. -/
structure TopicsState where
  heap : List (Nat × Record)
  nextRef : Nat
  data : List Nat
  topics_by_id : List (Int × Nat)
deriving DecidableEq, Repr

/-- Dereference a record object. -/
def TopicsState.deref (s : TopicsState) (r : Nat) : Record :=
  (alGet s.heap r).getD []

/-- Outcome of a store operation: `ok` for normal return, `exn` when a
Python exception escapes; both carry the state the operation leaves
behind (exceptions can escape after a partial mutation). -/
inductive PyResult (α : Type)
  | ok (s : α)
  | exn (s : α)
deriving DecidableEq, Repr

/-- The state an operation left behind, exceptional or not. -/
def PyResult.state {α : Type} : PyResult α → α
  | .ok s => s
  | .exn s => s

/-- `Topic.create_new_topic` (`topics_model.py:84`): append the record
object to `data`, then index it under `int(topic['id'])`; a missing key
or failing cast raises after `data` was already extended. -/
def create_new_topic (s : TopicsState) (topic : Record) : PyResult TopicsState :=
  let ref := s.nextRef
  let s1 : TopicsState :=
    { s with heap := s.heap ++ [(ref, topic)], nextRef := ref + 1,
             data := s.data ++ [ref] }
  match (alGet topic "id").bind pyInt with
  | none => .exn s1
  | some n => .ok { s1 with topics_by_id := alSet s1.topics_by_id n ref }

/-- `Topic.update_topic` (`topics_model.py:98`) called, as the claim puts
it, with a record object distinct from the indexed one (the argument is
allocated fresh): look up the indexed object, remove the first
value-equal record from `data` (a missing one raises `ValueError`),
append the new object, and field-merge the new fields into the indexed
object in place. -/
def update_topic (s : TopicsState) (topic_id : Int) (updated_topic : Record) :
    PyResult TopicsState :=
  let ref := s.nextRef
  let s1 : TopicsState :=
    { s with heap := s.heap ++ [(ref, updated_topic)], nextRef := ref + 1 }
  match alGet s1.topics_by_id topic_id with
  | none => .ok s1
  | some oldRef =>
    let old := s1.deref oldRef
    match s1.data.findIdx? (fun r => recEquiv (s1.deref r) old) with
    | none => .exn s1
    | some i =>
      .ok { s1 with data := s1.data.eraseIdx i ++ [ref],
                    heap := alSet s1.heap oldRef (recUpdate old updated_topic) }

/-- `Topic.delete_topic` (`topics_model.py:127`): pop the index entry; a
truthy (nonempty) popped record is then removed from `data` by value
equality (`ValueError` if absent, with the index already mutated). -/
def delete_topic (s : TopicsState) (topic_id : Int) : PyResult TopicsState :=
  match alGet s.topics_by_id topic_id with
  | none => .ok s
  | some ref =>
    let s1 : TopicsState := { s with topics_by_id := alErase s.topics_by_id topic_id }
    let topic := s1.deref ref
    if topic = [] then .ok s1
    else
      match s1.data.findIdx? (fun r => recEquiv (s1.deref r) topic) with
      | none => .exn s1
      | some i => .ok { s1 with data := s1.data.eraseIdx i }

/-! ### Config schema (`src/model/config_model.py`) -/

/-- Enum `FieldType` (`config_model.py:10`). -/
inductive FieldType
  | STRING
  | NUMBER
  | SELECT
  | DATE
deriving DecidableEq, Repr

/-- Dataclass `FieldDefinition` (`config_model.py:21`). -/
structure FieldDefinition where
  name : String
  caption : String
  type : FieldType
  lines : Int
  options : List FieldValue
  show_in_table : Bool
  table_column_width : Int
  input_width : Option Int
  read_only : Bool
  computed : Option String
deriving DecidableEq, Repr

/-- The part of the `Config` singleton the topics controller reads: the
flat field-definition list and its name-indexed mirror. -/
structure Config where
  columns : List FieldDefinition
  columns_dict : List (String × FieldDefinition)
deriving DecidableEq, Repr

/-! ### Topics controller (`src/controller/topics_controller.py`) -/

/-- Enum `TopicAction` (`topics_controller.py:17`). -/
inductive TopicAction
  | NEW
  | EDIT
deriving DecidableEq, Repr

/-- The `match field_def.computed` body of
`TopicsController.apply_field_function` (`topics_controller.py:357`-`364`)
for one field. -/
def apply_one (today : String) (topic_action : TopicAction)
    (field_def : FieldDefinition) (topic : Record) (field_name : String) : Record :=
  match field_def.computed with
  | some "created_date" =>
    if topic_action = .NEW then alSet topic field_name (.vStr today) else topic
  | some "edit_date" => alSet topic field_name (.vStr today)
  | _ => topic

/-- The loop of `TopicsController.apply_field_function`
(`topics_controller.py:352`-`364`) over an explicit workset of field
names; `none` embeds the `KeyError` of a field absent from the schema. -/
def apply_fields (cfg : Config) (today : String) (topic_action : TopicAction) :
    Record → List String → Option Record
  | topic, [] => some topic
  | topic, field_name :: rest =>
    match alGet cfg.columns_dict field_name with
    | none => none
    | some field_def =>
      apply_fields cfg today topic_action
        (apply_one today topic_action field_def topic field_name) rest

/-- `TopicsController.apply_field_function` (`topics_controller.py:328`):
stamp `computed` fields with today's date according to the action; the
workset is the key list minus the first `'id'` (`list.remove` raises when
`'id'` is absent, embedded as `none`). -/
def apply_field_function (cfg : Config) (today : String) (topic : Record)
    (topic_action : TopicAction) : Option Record :=
  if "id" ∈ alKeys topic then
    apply_fields cfg today topic_action topic ((alKeys topic).erase "id")
  else none

/-- Python `max(ids, default=0)` on integers. -/
def intMaxD (l : List Int) (dflt : Int) : Int :=
  match l with
  | [] => dflt
  | a :: r => r.foldl max a

/-- The ID scan of `TopicsController.create_new_topic`
(`topics_controller.py:240`-`241`): `max([topic['id'] for topic in
data], default=0) + 1`.  `none` embeds the raised exception: `KeyError`
for a record without `'id'`, `TypeError` either from `max` over mixed
types or from `+ 1` on an all-string scan. -/
def controller_new_id (s : TopicsState) : Option Int :=
  match optMapM (fun r => alGet (s.deref r) "id") s.data with
  | none => none
  | some vals =>
    match optMapM (fun v => match v with
      | .vInt n => some n
      | .vBool b => some (if b then (1 : Int) else 0)
      | .vStr _ => none) vals with
    | none => none
    | some ids => some (intMaxD ids 0 + 1)

/-- `TopicsController.create_new_topic` (`topics_controller.py:235`),
model-facing effects only: generate the ID (raising before any store
mutation), build the blank record over the schema columns, stamp the
computed fields, and hand it to the store. -/
def controller_create_new_topic (cfg : Config) (today : String)
    (s : TopicsState) : PyResult TopicsState :=
  match controller_new_id s with
  | none => .exn s
  | some new_id =>
    let topic0 : Record :=
      cfg.columns.foldl (fun t c => alSet t c.name (.vStr "")) [("id", .vInt new_id)]
    match apply_field_function cfg today topic0 .NEW with
    | none => .exn s
    | some topic => create_new_topic s topic

/-! ### Notes controller (`src/controller/notes_controller.py`)

The wall clock (`time.time()`) is embedded as integer seconds; the
debounce timer thread is state (deadline and pending text) owned by the
controller - each edit cancels the pending timer and installs a new one.
The persisted notes document equals `notes_model.notes` after every
`save_to_file`, so one field stands for both. -/

/-- The `NotesController` state joined with the `Notes` model state. -/
structure NotesCtrl where
  throttle_interval : Int
  debounce_interval : Int
  last_throttle_call : Int
  notes : String
  debounce_timer : Option (Int × String)
deriving DecidableEq, Repr

/-- `NotesController.save_text` (`notes_controller.py:118`): write the
text to the model and the file only when it changed; the flag reports
whether a write happened. -/
def save_text (c : NotesCtrl) (text : String) : NotesCtrl × Bool :=
  if c.notes ≠ text then ({ c with notes := text }, true) else (c, false)

/-- `NotesController.text_area_changed_action` (`notes_controller.py:85`)
at clock value `now`: save through the throttle path when at least
`throttle_interval` elapsed since `last_throttle_call` (recording `now`),
then cancel and re-arm the debounce timer.  The flag reports whether the
throttle path called `save_text`. -/
def text_area_changed_action (c : NotesCtrl) (now : Int) (text : String) :
    NotesCtrl × Bool :=
  let (c1, fired) :=
    if c.throttle_interval ≤ now - c.last_throttle_call then
      (({ (save_text c text).1 with last_throttle_call := now } : NotesCtrl), true)
    else (c, false)
  ({ c1 with debounce_timer := some (now + c1.debounce_interval, text) }, fired)

/-- Feed a sequence of edit events (clock value, full text) to the
controller, collecting whether each edit saved through the throttle
path. -/
def run_notes (c : NotesCtrl) : List (Int × String) → NotesCtrl × List Bool
  | [] => (c, [])
  | (now, text) :: rest =>
    let (c1, fired) := text_area_changed_action c now text
    let (c2, flags) := run_notes c1 rest
    (c2, fired :: flags)

/-! ### Shared lemmas -/

theorem alGet_mem {κ α : Type} [DecidableEq κ] {l : List (κ × α)} {k : κ} {v : α}
    (h : alGet l k = some v) : (k, v) ∈ l := by
  induction l with
  | nil => simp [alGet] at h
  | cons p r ih =>
    obtain ⟨k', v'⟩ := p
    by_cases hk : k = k'
    · subst hk
      simp [alGet] at h
      simp [h]
    · simp [alGet, hk] at h
      simp [ih h]

theorem pyIndexOf_lt_length {α : Type} [DecidableEq α] {l : List α} {a : α} {i : Nat}
    (h : pyIndexOf l a = some i) : i < l.length := by
  induction l generalizing i with
  | nil => simp [pyIndexOf] at h
  | cons b r ih =>
    by_cases hb : b = a
    · simp [pyIndexOf, hb] at h
      simp only [List.length_cons]
      omega
    · simp [pyIndexOf, hb] at h
      obtain ⟨j, hj, rfl⟩ := h
      have := ih hj
      simp only [List.length_cons]
      omega

/-- Evaluation of `List.mergeSort` on a two-element list. -/
theorem mergeSort_pair {α : Type} (le : α → α → Bool) (a b : α) :
    [a, b].mergeSort le = if le a b then [a, b] else [b, a] := by
  rw [List.mergeSort]
  simp [List.splitInTwo, List.splitAt, List.splitAt.go, List.merge]

/-- Looking a column up after `sort_tasks` sorts exactly that column's
list. -/
theorem alGet_sort_tasks (tasks : TasksMap) (col : String) :
    alGet (sort_tasks tasks) col = (alGet tasks col).map (List.mergeSort · taskLE) := by
  induction tasks with
  | nil => simp [sort_tasks, alGet]
  | cons p r ih =>
    obtain ⟨c, l⟩ := p
    by_cases h : col = c <;> simp [sort_tasks, alGet, h] <;> simpa [sort_tasks] using ih

/-- Concrete example tasks used by witnesses and counterexamples. -/
def exTaskA : Task :=
  { column_name := "inbox", description := "alpha", priority := .HIGH,
    start_date := "2025-01-01", end_date := "", days_to_start := none,
    days_to_end := none }

def exTaskB : Task :=
  { column_name := "inbox", description := "beta", priority := .MEDIUM,
    start_date := "", end_date := "", days_to_start := none,
    days_to_end := none }

/-! ### Claim C7: `delete_task` removes exactly one position, else no-op -/

/-- Claim C7: `delete_task(column, index)` removes exactly the task at the
given position when the column exists and `0 ≤ index < len`, leaving
every other column untouched; for an unknown column or an out-of-bounds
(including negative) index it is a silent no-op that leaves the mapping
exactly as it was. -/
theorem claim7_delete_task (tasks : TasksMap) (column_name : String) (task_index : Int) :
    (∀ l, alGet tasks column_name = some l →
      0 ≤ task_index → task_index < (l.length : Int) →
        delete_task tasks column_name task_index =
          alSet tasks column_name
            (l.take task_index.toNat ++ l.drop (task_index.toNat + 1)) ∧
        ∀ c, c ≠ column_name →
          alGet (delete_task tasks column_name task_index) c = alGet tasks c) ∧
    (alGet tasks column_name = none →
      delete_task tasks column_name task_index = tasks) ∧
    (∀ l, alGet tasks column_name = some l →
      (task_index < 0 ∨ (l.length : Int) ≤ task_index) →
        delete_task tasks column_name task_index = tasks) := by
  refine ⟨fun l hl h0 hlen => ?_, fun hn => ?_, fun l hl hout => ?_⟩
  · have hcond : 0 ≤ task_index ∧ task_index < (l.length : Int) := ⟨h0, hlen⟩
    constructor
    · simp [delete_task, hl, hcond, List.eraseIdx_eq_take_drop_succ]
    · intro c hc
      simp [delete_task, hl, hcond]
      exact alGet_alSet_ne _ _ _ _ hc
  · simp [delete_task, hn]
  · have hcond : ¬(0 ≤ task_index ∧ task_index < (l.length : Int)) := by omega
    simp [delete_task, hl, hcond]

/-- Witness for C7 at a concrete store: deleting index 0 of a two-task
column keeps exactly the second task, and index 5 is a no-op. -/
theorem claim7_delete_task_witness :
    delete_task [("inbox", [exTaskA, exTaskB])] "inbox" 0 =
      alSet [("inbox", [exTaskA, exTaskB])] "inbox" [exTaskB] ∧
    delete_task [("inbox", [exTaskA, exTaskB])] "inbox" 5 =
      [("inbox", [exTaskA, exTaskB])] := by
  constructor
  · exact ((claim7_delete_task [("inbox", [exTaskA, exTaskB])] "inbox" 0).1
      [exTaskA, exTaskB] (by decide) (by decide) (by decide)).1
  · exact (claim7_delete_task [("inbox", [exTaskA, exTaskB])] "inbox" 5).2.2
      [exTaskA, exTaskB] (by decide) (by decide)

/-! ### Claim C5: column transfer clamps at the board boundary -/

/-- Claim C5: moving the selected task left while its column is the first
configured column, or right while it is the last, clamps the target index
onto the source index and returns before any deletion or append: the
whole tasks mapping (hence every column list and every task's
`column_name`) is returned unchanged. -/
theorem claim5_move_task_boundary (column_names : List String) (tasks : TasksMap)
    (source_column_name : String) (selected_task_index : Int)
    (move_direction : TaskMoveDirection) (i : Nat)
    (hsrc : pyIndexOf column_names source_column_name = some i)
    (hb : (move_direction = .LEFT ∧ i = 0) ∨
          (move_direction = .RIGHT ∧ i = column_names.length - 1)) :
    move_task column_names tasks source_column_name selected_task_index
      move_direction = some tasks := by
  have hlt : i < column_names.length := pyIndexOf_lt_length hsrc
  rcases hb with ⟨hdir, hi⟩ | ⟨hdir, hi⟩
  · subst hdir hi
    have hget : column_names[0]? = some column_names[0] :=
      List.getElem?_eq_getElem hlt
    simp [move_task, hsrc, hget]
  · subst hdir
    have htgt : min (i + 1) (column_names.length - 1) = i := by omega
    have hget : column_names[i]? = some column_names[i] :=
      List.getElem?_eq_getElem hlt
    simp [move_task, hsrc, htgt, hget]

/-- Witness for C5 on a concrete three-column board: moving left from the
first column and right from the last both leave the store unchanged. -/
theorem claim5_move_task_boundary_witness :
    move_task ["inbox", "doing", "done"] [("inbox", [exTaskA])] "inbox" 0 .LEFT =
      some [("inbox", [exTaskA])] ∧
    move_task ["inbox", "doing", "done"] [("done", [exTaskA])] "done" 0 .RIGHT =
      some [("done", [exTaskA])] := by
  constructor
  · exact claim5_move_task_boundary ["inbox", "doing", "done"] [("inbox", [exTaskA])]
      "inbox" 0 .LEFT 0 (by decide) (Or.inl ⟨rfl, rfl⟩)
  · exact claim5_move_task_boundary ["inbox", "doing", "done"] [("done", [exTaskA])]
      "done" 0 .RIGHT 2 (by decide) (Or.inr ⟨rfl, rfl⟩)

/-! ### Claim C10: the ID max-scan fails fast on records without an id -/

theorem optMapM_eq_none {α β : Type} (f : α → Option β) {l : List α} {a : α}
    (ha : a ∈ l) (hf : f a = none) : optMapM f l = none := by
  induction l with
  | nil => simp at ha
  | cons b r ih =>
    rcases List.mem_cons.mp ha with rfl | hmem
    · cases h2 : optMapM f r <;> simp [optMapM, hf, h2]
    · cases hb : f b <;> simp [optMapM, hb, ih hmem]

/-- Claim C10: when any record in the primary list lacks an `'id'` key,
the controller's `create_new_topic` raises inside the ID max-scan and
leaves the whole store - primary list, index, heap - exactly as it was. -/
theorem claim10_create_new_topic_missing_id (cfg : Config) (today : String)
    (s : TopicsState) (r : Nat) (hr : r ∈ s.data)
    (hid : alGet (s.deref r) "id" = none) :
    controller_create_new_topic cfg today s = .exn s := by
  have hnone : controller_new_id s = none := by
    have h1 : optMapM (fun r => alGet (s.deref r) "id") s.data = none :=
      optMapM_eq_none _ hr hid
    simp [controller_new_id, h1]
  simp [controller_create_new_topic, hnone]

/-- Concrete store whose single record has no `'id'` key. -/
def exNoIdState : TopicsState :=
  { heap := [(0, [("title", .vStr "orphan")])], nextRef := 1,
    data := [0], topics_by_id := [] }

/-- Witness for C10: creating on the concrete id-less store raises and
returns it unchanged. -/
theorem claim10_create_new_topic_missing_id_witness :
    controller_create_new_topic ⟨[], []⟩ "2025-06-01" exNoIdState = .exn exNoIdState :=
  claim10_create_new_topic_missing_id ⟨[], []⟩ "2025-06-01" exNoIdState 0
    (by decide) (by decide)

/-! ### Claim C8: throttle saves and idempotent writes -/

theorem text_area_changed_action_interval (c : NotesCtrl) (now : Int) (text : String) :
    (text_area_changed_action c now text).1.throttle_interval = c.throttle_interval := by
  by_cases h : c.throttle_interval ≤ now - c.last_throttle_call <;>
    simp [text_area_changed_action, save_text, h] <;> split <;> rfl

theorem text_area_changed_action_last (c : NotesCtrl) (now : Int) (text : String) :
    (text_area_changed_action c now text).1.last_throttle_call =
      if c.throttle_interval ≤ now - c.last_throttle_call then now
      else c.last_throttle_call := by
  by_cases h : c.throttle_interval ≤ now - c.last_throttle_call <;>
    simp [text_area_changed_action, save_text, h] <;> split <;> rfl

theorem text_area_changed_action_fired (c : NotesCtrl) (now : Int) (text : String) :
    (text_area_changed_action c now text).2 =
      decide (c.throttle_interval ≤ now - c.last_throttle_call) := by
  by_cases h : c.throttle_interval ≤ now - c.last_throttle_call <;>
    simp [text_area_changed_action, save_text, h]

/-- Claim C8: on every edit sequence the throttle path saves at edit `i`
if and only if at least `throttle_interval` has elapsed since the
recorded last throttle save, which the save then updates; and the shared
`save_text` writes nothing (leaving the state untouched) when the
reported text equals the persisted notes, while any write stores exactly
the reported text. -/
theorem claim8_notes_throttle (c : NotesCtrl) (evs : List (Int × String)) (i : Nat)
    (hi : i < evs.length) (c' : NotesCtrl) (text : String) :
    ((run_notes c evs).2.get? i =
      some (decide (c.throttle_interval ≤
        (evs.get ⟨i, hi⟩).1 - (run_notes c (evs.take i)).1.last_throttle_call))) ∧
    ((run_notes c (evs.take (i + 1))).1.last_throttle_call =
      if c.throttle_interval ≤
          (evs.get ⟨i, hi⟩).1 - (run_notes c (evs.take i)).1.last_throttle_call
      then (evs.get ⟨i, hi⟩).1
      else (run_notes c (evs.take i)).1.last_throttle_call) ∧
    (c'.notes = text → save_text c' text = (c', false)) ∧
    ((save_text c' text).2 = true → (save_text c' text).1.notes = text) := by
  refine ⟨?_, ?_, fun h => by simp [save_text, h], ?_⟩
  · induction evs generalizing c i with
    | nil => simp at hi
    | cons e rest ih =>
      obtain ⟨now, txt⟩ := e
      cases i with
      | zero =>
        simpa [run_notes] using text_area_changed_action_fired c now txt
      | succ j =>
        have hj : j < rest.length := by simpa using hi
        have step := ih (text_area_changed_action c now txt).1 j hj
        rw [text_area_changed_action_interval] at step
        simpa [run_notes] using step
  · induction evs generalizing c i with
    | nil => simp at hi
    | cons e rest ih =>
      obtain ⟨now, txt⟩ := e
      cases i with
      | zero =>
        simpa [run_notes] using text_area_changed_action_last c now txt
      | succ j =>
        have hj : j < rest.length := by simpa using hi
        have step := ih (text_area_changed_action c now txt).1 j hj
        rw [text_area_changed_action_interval] at step
        simpa [run_notes] using step
  · intro h
    by_cases hne : c'.notes = text <;> simp [save_text, hne] at h ⊢

/-- Witness for C8 on a concrete three-edit burst: the first edit fires
the throttle, the two edits inside the interval do not, and `save_text`
on unchanged text is a silent no-op. -/
theorem claim8_notes_throttle_witness :
    (run_notes
      { throttle_interval := 5, debounce_interval := 5, last_throttle_call := 0,
        notes := "", debounce_timer := none }
      [(100, "a"), (101, "ab"), (102, "abc")]).2.get? 1 = some false ∧
    save_text
      { throttle_interval := 5, debounce_interval := 5, last_throttle_call := 0,
        notes := "abc", debounce_timer := none } "abc" =
      ({ throttle_interval := 5, debounce_interval := 5, last_throttle_call := 0,
         notes := "abc", debounce_timer := none }, false) := by
  constructor
  · have h := (claim8_notes_throttle
      { throttle_interval := 5, debounce_interval := 5, last_throttle_call := 0,
        notes := "", debounce_timer := none }
      [(100, "a"), (101, "ab"), (102, "abc")] 1 (by decide)
      { throttle_interval := 5, debounce_interval := 5, last_throttle_call := 0,
        notes := "", debounce_timer := none } "").1
    simpa [run_notes, text_area_changed_action, save_text] using h
  · exact ((claim8_notes_throttle
      { throttle_interval := 5, debounce_interval := 5, last_throttle_call := 0,
        notes := "", debounce_timer := none } [(0, "")] 0 (by decide)
      { throttle_interval := 5, debounce_interval := 5, last_throttle_call := 0,
        notes := "abc", debounce_timer := none } "abc").2.2.1 rfl)

/-! ### Claims C9 and C1: the task sort order -/

/-- Unfolding of the boolean tuple order into its lexicographic reading. -/
theorem tupLE_iff (x y : Nat × Nat × Nat × List Nat) :
    tupLE x y = true ↔
      (x.1 < y.1 ∨ (x.1 = y.1 ∧
        (x.2.1 < y.2.1 ∨ (x.2.1 = y.2.1 ∧
          (x.2.2.1 < y.2.2.1 ∨ (x.2.2.1 = y.2.2.1 ∧
            natListLE x.2.2.2 y.2.2.2 = true)))))) := by
  simp only [tupLE]
  split_ifs with h1 h2 h3 h4 h5 h6 <;> simp_all

/-- The ordering the spec words: priority ordinal ascending, then start
timestamp (absent mapped to the far-future sentinel), then end timestamp
(same sentinel), then lowercased description; stated independently of the
source's key function for comparison against it. -/
def specLE (a b : Task) : Prop :=
  a.priority.value < b.priority.value ∨
  (a.priority.value = b.priority.value ∧
    (startKey a < startKey b ∨
      (startKey a = startKey b ∧
        (endKey a < endKey b ∨
          (endKey a = endKey b ∧
            natListLE (strLower a.description) (strLower b.description) = true)))))

/-- The source's comparison and the spec's tuple reading agree. -/
theorem specLE_iff_taskLE (a b : Task) : specLE a b ↔ taskLE a b = true := by
  rw [taskLE, tupLE_iff]
  rfl

theorem mergeSort_taskLE_sorted (l : List Task) :
    (l.mergeSort taskLE).Pairwise (fun a b => taskLE a b = true) :=
  List.sorted_mergeSort (fun a b c => taskLE_trans a b c)
    (fun a b => taskLE_total a b) l

theorem mergeSort_taskLE_idem (l : List Task) :
    (l.mergeSort taskLE).mergeSort taskLE = l.mergeSort taskLE :=
  List.mergeSort_of_sorted (mergeSort_taskLE_sorted l)

theorem sort_tasks_idem (tasks : TasksMap) :
    sort_tasks (sort_tasks tasks) = sort_tasks tasks := by
  induction tasks with
  | nil => rfl
  | cons p r ih =>
    obtain ⟨c, l⟩ := p
    simpa [sort_tasks, mergeSort_taskLE_idem] using ih

/-- Claim C9: sorting is idempotent, and within the produced order the
priority ordinal strictly dominates the date pair, which strictly
dominates the lowercased description. -/
theorem claim9_sort_idempotent_dominant (tasks : TasksMap) (col : String)
    (l' : List Task) (hcol : alGet (sort_tasks tasks) col = some l')
    (i j : Nat) (hi : i < l'.length) (hj : j < l'.length) (hij : i < j) :
    sort_tasks (sort_tasks tasks) = sort_tasks tasks ∧
    (l'.get ⟨i, hi⟩).priority.value ≤ (l'.get ⟨j, hj⟩).priority.value ∧
    ((l'.get ⟨i, hi⟩).priority.value = (l'.get ⟨j, hj⟩).priority.value →
      startKey (l'.get ⟨i, hi⟩) < startKey (l'.get ⟨j, hj⟩) ∨
      (startKey (l'.get ⟨i, hi⟩) = startKey (l'.get ⟨j, hj⟩) ∧
        endKey (l'.get ⟨i, hi⟩) ≤ endKey (l'.get ⟨j, hj⟩))) ∧
    ((l'.get ⟨i, hi⟩).priority.value = (l'.get ⟨j, hj⟩).priority.value →
      startKey (l'.get ⟨i, hi⟩) = startKey (l'.get ⟨j, hj⟩) →
      endKey (l'.get ⟨i, hi⟩) = endKey (l'.get ⟨j, hj⟩) →
      natListLE (strLower (l'.get ⟨i, hi⟩).description)
        (strLower (l'.get ⟨j, hj⟩).description) = true) := by
  rw [alGet_sort_tasks] at hcol
  obtain ⟨l0, hl0, rfl⟩ : ∃ l0, alGet tasks col = some l0 ∧ l' = l0.mergeSort taskLE := by
    cases h : alGet tasks col with
    | none => rw [h] at hcol; simp at hcol
    | some l0 => rw [h] at hcol; simp at hcol; exact ⟨l0, rfl, hcol.symm⟩
  have hpw := mergeSort_taskLE_sorted l0
  rw [List.pairwise_iff_getElem] at hpw
  have hle := hpw i j hi hj hij
  rw [taskLE, tupLE_iff] at hle
  simp only [taskSortKey] at hle
  refine ⟨sort_tasks_idem tasks, ?_, ?_, ?_⟩
  · rcases hle with h | ⟨heq, _⟩
    · simp only [List.get_eq_getElem]; omega
    · simp only [List.get_eq_getElem]; omega
  · intro hpr
    simp only [List.get_eq_getElem] at hpr ⊢
    rcases hle with h | ⟨heq, h2⟩
    · omega
    · rcases h2 with h | ⟨heq2, h3⟩
      · exact Or.inl h
      · rcases h3 with h | ⟨heq3, _⟩
        · exact Or.inr ⟨heq2, le_of_lt h⟩
        · exact Or.inr ⟨heq2, le_of_eq heq3⟩
  · intro hpr hst hen
    simp only [List.get_eq_getElem] at hpr hst hen ⊢
    rcases hle with h | ⟨heq, h2⟩
    · omega
    · rcases h2 with h | ⟨heq2, h3⟩
      · omega
      · rcases h3 with h | ⟨heq3, h4⟩
        · omega
        · exact h4

/-- Witness for C9 on a concrete two-task column with distinct
priorities. -/
theorem claim9_sort_idempotent_dominant_witness :
    sort_tasks (sort_tasks [("inbox", [exTaskB, exTaskA])]) =
      sort_tasks [("inbox", [exTaskB, exTaskA])] ∧
    ∀ (h : alGet (sort_tasks [("inbox", [exTaskB, exTaskA])]) "inbox" =
        some [exTaskA, exTaskB]), True := by
  have hs : alGet (sort_tasks [("inbox", [exTaskB, exTaskA])]) "inbox" =
      some [exTaskA, exTaskB] := by
    have h : taskLE exTaskB exTaskA = false := by decide
    simp [sort_tasks, mergeSort_pair, h, alGet]
  have hmain := claim9_sort_idempotent_dominant [("inbox", [exTaskB, exTaskA])]
    "inbox" [exTaskA, exTaskB] hs 0 1 (by decide) (by decide) (by decide)
  exact ⟨hmain.1, fun _ => trivial⟩

/-- Tasks for the C1 counterexample: a concrete start date beyond the
year-3000 sentinel, and an empty start date. -/
def exTaskFarFuture : Task :=
  { column_name := "inbox", description := "alpha", priority := .HIGH,
    start_date := "3500-01-01", end_date := "", days_to_start := none,
    days_to_end := none }

def exTaskEmptyStart : Task :=
  { column_name := "inbox", description := "beta", priority := .HIGH,
    start_date := "", end_date := "", days_to_start := none,
    days_to_end := none }

/-- Counterexample to C1 as frozen: in one priority tier, the task with
the empty start date sorts BEFORE the task with the concrete start date
"3500-01-01", because that date's timestamp exceeds the
`datetime(3000, 1, 1)` sentinel that stands in for the empty date. -/
theorem claim1_counterexample :
    exTaskEmptyStart.start_date = "" ∧
    date_to_timestamp exTaskFarFuture.start_date = some 35000101 ∧
    exTaskEmptyStart.priority = exTaskFarFuture.priority ∧
    sort_tasks [("inbox", [exTaskFarFuture, exTaskEmptyStart])] =
      [("inbox", [exTaskEmptyStart, exTaskFarFuture])] := by
  refine ⟨by decide, by decide, by decide, ?_⟩
  have h : taskLE exTaskFarFuture exTaskEmptyStart = false := by decide
  simp [sort_tasks, mergeSort_pair, h]

/-- Claim C1 (amended): `sort_tasks` stable-sorts each column by the
tuple (priority ordinal, start timestamp with the year-3000 sentinel for
absent dates, end timestamp likewise, lowercased description) - the
output is a permutation of the column, ordered by the spec tuple, with
ties kept in input order; and within one priority tier a task with empty
`start_date` sorts after every task whose concrete start date lies below
the sentinel (dates of year 3000 and beyond sort at or after the
sentinel instead). -/
theorem claim1_sort_tasks_ordering (tasks : TasksMap) (col : String)
    (l l' : List Task) (hcol : alGet tasks col = some l)
    (hsorted : alGet (sort_tasks tasks) col = some l') :
    l'.Perm l ∧
    l'.Pairwise specLE ∧
    (∀ a b, [a, b].Sublist l → specLE a b → [a, b].Sublist l') ∧
    (∀ i j (hi : i < l'.length) (hj : j < l'.length), i < j →
      (l'.get ⟨i, hi⟩).priority.value = (l'.get ⟨j, hj⟩).priority.value →
      (l'.get ⟨i, hi⟩).start_date = "" →
      ∀ ts, date_to_timestamp (l'.get ⟨j, hj⟩).start_date = some ts →
        MAX_DATE ≤ ts) := by
  rw [alGet_sort_tasks, hcol] at hsorted
  simp at hsorted
  subst hsorted
  refine ⟨List.mergeSort_perm l taskLE, ?_, ?_, ?_⟩
  · exact (mergeSort_taskLE_sorted l).imp (fun h => (specLE_iff_taskLE _ _).mpr h)
  · intro a b hsub hab
    exact List.pair_sublist_mergeSort (fun a b c => taskLE_trans a b c)
      (fun a b => taskLE_total a b) ((specLE_iff_taskLE a b).mp hab) hsub
  · intro i j hi hj hij hpr hempty ts hts
    have hpw := mergeSort_taskLE_sorted l
    rw [List.pairwise_iff_getElem] at hpw
    have hle := hpw i j hi hj hij
    rw [taskLE, tupLE_iff] at hle
    simp only [taskSortKey] at hle
    have hstarti : startKey ((l.mergeSort taskLE).get ⟨i, hi⟩) = MAX_DATE := by
      simp [startKey, List.get_eq_getElem, hempty]
      rw [show ((l.mergeSort taskLE)[i].start_date) = "" from hempty]
      decide
    have hstartj : startKey ((l.mergeSort taskLE).get ⟨j, hj⟩) = ts := by
      simp [startKey, List.get_eq_getElem]
      rw [show date_to_timestamp ((l.mergeSort taskLE)[j].start_date) = some ts
        from hts]
      rfl
    simp only [List.get_eq_getElem] at hpr hstarti hstartj
    rcases hle with h | ⟨heq, h2⟩
    · omega
    · rcases h2 with h | ⟨heq2, _⟩ <;> omega

/-- Witness for C1 on a concrete one-task column. -/
theorem claim1_sort_tasks_ordering_witness :
    alGet [("inbox", [exTaskA])] "inbox" = some [exTaskA] ∧
    ∃ l', alGet (sort_tasks [("inbox", [exTaskA])]) "inbox" = some l' ∧
      l'.Perm [exTaskA] := by
  have h1 : alGet [("inbox", [exTaskA])] "inbox" = some [exTaskA] := by decide
  have h2 : alGet (sort_tasks [("inbox", [exTaskA])]) "inbox" = some [exTaskA] := by
    simp [sort_tasks, alGet]
  exact ⟨h1, [exTaskA], h2,
    (claim1_sort_tasks_ordering [("inbox", [exTaskA])] "inbox"
      [exTaskA] [exTaskA] h1 h2).1⟩

/-! ### Claim C6: computed date-stamp fields -/

/-- The per-field effect the claim describes: `created_date` fields get
today's date only on NEW, `edit_date` fields get it on every action,
anything else passes through. -/
def fieldRule (fd : FieldDefinition) (topic_action : TopicAction) (today : String)
    (old : Option FieldValue) : Option FieldValue :=
  if fd.computed = some "created_date" then
    (if topic_action = .NEW then some (.vStr today) else old)
  else if fd.computed = some "edit_date" then some (.vStr today)
  else old

theorem apply_one_keys (today : String) (topic_action : TopicAction)
    (fd : FieldDefinition) (topic : Record) (f : String) (hf : f ∈ alKeys topic) :
    alKeys (apply_one today topic_action fd topic f) = alKeys topic := by
  unfold apply_one
  split
  · split
    · rw [alKeys_alSet]; simp [hf]
    · rfl
  · rw [alKeys_alSet]; simp [hf]
  · rfl

theorem apply_one_get_ne (today : String) (topic_action : TopicAction)
    (fd : FieldDefinition) (topic : Record) (f k : String) (hk : k ≠ f) :
    alGet (apply_one today topic_action fd topic f) k = alGet topic k := by
  unfold apply_one
  split
  · split
    · exact alGet_alSet_ne _ _ _ _ hk
    · rfl
  · exact alGet_alSet_ne _ _ _ _ hk
  · rfl

theorem apply_one_get_self (today : String) (topic_action : TopicAction)
    (fd : FieldDefinition) (topic : Record) (f : String) :
    alGet (apply_one today topic_action fd topic f) =
      fun k => alGet (apply_one today topic_action fd topic f) k := rfl

theorem apply_one_get (today : String) (topic_action : TopicAction)
    (fd : FieldDefinition) (topic : Record) (f : String) :
    alGet (apply_one today topic_action fd topic f) f =
      fieldRule fd topic_action today (alGet topic f) := by
  unfold apply_one fieldRule
  split
  · rename_i heq
    rw [heq]
    by_cases ha : topic_action = .NEW <;> simp [ha, alGet_alSet_self]
  · rename_i heq
    rw [heq]
    simp [alGet_alSet_self]
  · rename_i h1 h2
    rw [if_neg h1, if_neg h2]

theorem apply_fields_spec (cfg : Config) (today : String)
    (topic_action : TopicAction) (fs : List String) :
    ∀ (topic : Record), fs.Nodup → (∀ k ∈ fs, k ∈ alKeys topic) →
    (∀ k ∈ fs, (alGet cfg.columns_dict k).isSome) →
    ∃ out, apply_fields cfg today topic_action topic fs = some out ∧
      alKeys out = alKeys topic ∧
      (∀ k, k ∉ fs → alGet out k = alGet topic k) ∧
      (∀ k fd, k ∈ fs → alGet cfg.columns_dict k = some fd →
        alGet out k = fieldRule fd topic_action today (alGet topic k)) := by
  induction fs with
  | nil => exact fun topic _ _ _ => ⟨topic, rfl, rfl, fun k _ => rfl, fun k fd hk => by simp at hk⟩
  | cons f rest ih =>
    intro topic hnd hsub hcfg
    obtain ⟨fd, hfd⟩ : ∃ fd, alGet cfg.columns_dict f = some fd := by
      have := hcfg f (by simp)
      cases h : alGet cfg.columns_dict f
      · rw [h] at this; simp at this
      · exact ⟨_, rfl⟩
    have hfmem : f ∈ alKeys topic := hsub f (by simp)
    set topic1 := apply_one today topic_action fd topic f with htopic1
    have hk1 : alKeys topic1 = alKeys topic := apply_one_keys _ _ _ _ _ hfmem
    have hnd' : rest.Nodup := hnd.of_cons
    have hfnotin : f ∉ rest := by
      rcases List.nodup_cons.mp hnd with ⟨h, _⟩; exact h
    obtain ⟨out, hout, hkeys, hne, hrule⟩ :=
      ih topic1 hnd'
        (fun k hk => hk1 ▸ hsub k (by simp [hk]))
        (fun k hk => hcfg k (by simp [hk]))
    refine ⟨out, ?_, by rw [hkeys, hk1], ?_, ?_⟩
    · simpa [apply_fields, hfd] using hout
    · intro k hk
      simp only [List.mem_cons, not_or] at hk
      rw [hne k hk.2, apply_one_get_ne _ _ _ _ _ _ hk.1]
    · intro k fd' hk hfd'
      rcases List.mem_cons.mp hk with rfl | hkrest
      · rw [hfd] at hfd'
        injection hfd' with h
        subst h
        rw [hne k hfnotin, apply_one_get]
      · have hkne : k ≠ f := fun h => hfnotin (h ▸ hkrest)
        rw [hrule k fd' hkrest hfd', apply_one_get_ne _ _ _ _ _ _ hkne]

/-- Claim C6: `apply_field_function` maps over every field other than
`id`: a `computed = 'created_date'` field is stamped with today's date
exactly when the action is NEW, a `computed = 'edit_date'` field is
stamped on NEW and EDIT alike, every other field (and `id` itself)
passes through unchanged, and the key set is preserved. -/
theorem claim6_apply_field_function (cfg : Config) (today : String)
    (topic : Record) (topic_action : TopicAction)
    (hid : "id" ∈ alKeys topic) (hnd : (alKeys topic).Nodup)
    (hcfg : ∀ k ∈ alKeys topic, k ≠ "id" → (alGet cfg.columns_dict k).isSome) :
    ∃ out, apply_field_function cfg today topic topic_action = some out ∧
      alKeys out = alKeys topic ∧
      alGet out "id" = alGet topic "id" ∧
      (∀ k fd, k ∈ alKeys topic → k ≠ "id" → alGet cfg.columns_dict k = some fd →
        alGet out k =
          (if fd.computed = some "created_date" then
            (if topic_action = .NEW then some (.vStr today) else alGet topic k)
          else if fd.computed = some "edit_date" then some (.vStr today)
          else alGet topic k)) := by
  have herase_mem : ∀ k, k ∈ (alKeys topic).erase "id" ↔ k ≠ "id" ∧ k ∈ alKeys topic :=
    fun k => hnd.mem_erase_iff
  obtain ⟨out, hout, hkeys, hne, hrule⟩ :=
    apply_fields_spec cfg today topic_action ((alKeys topic).erase "id") topic
      (hnd.erase "id")
      (fun k hk => ((herase_mem k).mp hk).2)
      (fun k hk => hcfg k ((herase_mem k).mp hk).2 ((herase_mem k).mp hk).1)
  refine ⟨out, ?_, hkeys, ?_, ?_⟩
  · simpa [apply_field_function, hid] using hout
  · exact hne "id" (fun h => ((herase_mem "id").mp h).1 rfl)
  · intro k fd hk hkne hfd
    rw [hrule k fd ((herase_mem k).mpr ⟨hkne, hk⟩) hfd]
    rfl

/-- Schema and record for the C6 witness: a `created_date` field, an
`edit_date` field and a plain field. -/
def exFieldCreated : FieldDefinition :=
  { name := "created", caption := "Created", type := .DATE, lines := 1,
    options := [], show_in_table := true, table_column_width := 10,
    input_width := none, read_only := true, computed := some "created_date" }

def exFieldEdited : FieldDefinition :=
  { name := "edited", caption := "Edited", type := .DATE, lines := 1,
    options := [], show_in_table := true, table_column_width := 10,
    input_width := none, read_only := true, computed := some "edit_date" }

def exFieldTitle : FieldDefinition :=
  { name := "title", caption := "Title", type := .STRING, lines := 1,
    options := [], show_in_table := true, table_column_width := 20,
    input_width := none, read_only := false, computed := none }

def exCfg : Config :=
  { columns := [exFieldCreated, exFieldEdited, exFieldTitle],
    columns_dict := [("created", exFieldCreated), ("edited", exFieldEdited),
                     ("title", exFieldTitle)] }

def exTopicRec : Record :=
  [("id", .vInt 1), ("created", .vStr "2025-01-01"),
   ("edited", .vStr "2025-01-01"), ("title", .vStr "hello")]

/-- Witness for C6: editing the concrete record restamps `edited` with
the new date while `created` and `title` pass through unchanged. -/
theorem claim6_apply_field_function_witness :
    ∃ out, apply_field_function exCfg "2025-06-01" exTopicRec .EDIT = some out ∧
      alGet out "created" = some (.vStr "2025-01-01") ∧
      alGet out "edited" = some (.vStr "2025-06-01") ∧
      alGet out "title" = some (.vStr "hello") ∧
      alGet out "id" = some (.vInt 1) := by
  obtain ⟨out, hout, hkeys, hidval, hrule⟩ :=
    claim6_apply_field_function exCfg "2025-06-01" exTopicRec .EDIT
      (by decide) (by decide) (by decide)
  refine ⟨out, hout, ?_, ?_, ?_, ?_⟩
  · rw [hrule "created" exFieldCreated (by decide) (by decide) (by decide)]
    decide
  · rw [hrule "edited" exFieldEdited (by decide) (by decide) (by decide)]
    decide
  · rw [hrule "title" exFieldTitle (by decide) (by decide) (by decide)]
    decide
  · rw [hidval]; decide

/-! ### Claim C3: save followed by load reproduces every task field -/

/-- The four persisted fields of a task: description, priority ordinal,
start date, end date. -/
def taskProj (t : Task) : String × Nat × String × String :=
  (t.description, t.priority.value, t.start_date, t.end_date)

theorem num_to_priority_value (p : TaskPriority) :
    num_to_priority ((p.value : Nat) : Int) = p := by
  cases p <;> rfl

/-- The task rebuilt by the load path from a cleaned record: same four
persisted fields, day offsets recomputed against today. -/
def reload (today : Nat) (col : String) (t : Task) : Task :=
  { column_name := col, description := t.description, priority := t.priority,
    start_date := t.start_date, end_date := t.end_date,
    days_to_start := days_to today t.start_date,
    days_to_end := days_to today t.end_date }

theorem create_from_clean (today : Nat) (col : String) (t : Task) :
    create_task_object_from_raw_data today col (clean_task t) =
      some (reload today col t) := by
  simp [create_task_object_from_raw_data, clean_task, alGet, jsonToInt,
    JsonVal.asStr, reload, num_to_priority_value]

theorem optMapM_map_some {α β γ : Type} (f : β → Option γ) (g : α → β) (h : α → γ)
    (l : List α) (hfg : ∀ x, f (g x) = some (h x)) :
    optMapM f (l.map g) = some (l.map h) := by
  induction l with
  | nil => rfl
  | cons a r ih => simp [optMapM, hfg a, ih]

/-- The state the per-column load loop reconstructs from a cleaned
document: each saved column re-enters the mapping as its reloaded
list. -/
def reloadColumns (today : Nat) (ts cs : TasksMap) : TasksMap :=
  cs.foldl (fun acc p => alSet acc p.1 (p.2.map (reload today p.1))) ts

theorem build_columns_clean (today : Nat) (cs : TasksMap) : ∀ (ts : TasksMap),
    build_columns today ts (get_cleaned_tasks_dict cs) =
      some (reloadColumns today ts cs) := by
  induction cs with
  | nil => intro ts; rfl
  | cons p rest ih =>
    intro ts
    obtain ⟨c, l⟩ := p
    have hmap : optMapM (create_task_object_from_raw_data today c)
        (l.map clean_task) = some (l.map (reload today c)) :=
      optMapM_map_some _ _ _ l (create_from_clean today c)
    simp [get_cleaned_tasks_dict, build_columns, hmap, reloadColumns] at ih ⊢
    exact ih (alSet ts c (l.map (reload today c)))

theorem reloadColumns_get_notin (today : Nat) (cs : TasksMap) : ∀ (ts : TasksMap)
    (col : String), col ∉ alKeys cs →
    alGet (reloadColumns today ts cs) col = alGet ts col := by
  induction cs with
  | nil => intro ts col _; rfl
  | cons p rest ih =>
    intro ts col hcol
    obtain ⟨c, l⟩ := p
    simp [alKeys] at hcol
    simp [reloadColumns] at ih ⊢
    rw [ih _ _ (by simp [alKeys, hcol.2])]
    exact alGet_alSet_ne _ _ _ _ hcol.1

theorem reloadColumns_get_in (today : Nat) (cs : TasksMap) : ∀ (ts : TasksMap)
    (col : String) (l : List Task), (alKeys cs).Nodup → (col, l) ∈ cs →
    alGet (reloadColumns today ts cs) col = some (l.map (reload today col)) := by
  induction cs with
  | nil => intro ts col l _ hmem; simp at hmem
  | cons p rest ih =>
    intro ts col l hnd hmem
    obtain ⟨c, l0⟩ := p
    rcases List.mem_cons.mp hmem with heq | hmem'
    · injection heq with h1 h2
      subst h1; subst h2
      have hnotin : col ∉ alKeys rest := (List.nodup_cons.mp hnd).1
      simp only [reloadColumns, List.foldl_cons]
      rw [show rest.foldl (fun acc p => alSet acc p.1 (p.2.map (reload today p.1)))
            (alSet ts col (l.map (reload today col))) =
          reloadColumns today (alSet ts col (l.map (reload today col))) rest from rfl]
      rw [reloadColumns_get_notin today rest _ col hnotin]
      exact alGet_alSet_self _ _ _
    · have hnd' : (alKeys rest).Nodup := (List.nodup_cons.mp hnd).2
      simp only [reloadColumns, List.foldl_cons]
      exact ih _ col l hnd' hmem'

theorem alKeys_sort_tasks (tasks : TasksMap) :
    alKeys (sort_tasks tasks) = alKeys tasks := by
  simp [sort_tasks, alKeys]

theorem taskLE_reload (today : Nat) (col : String) (a b : Task) :
    taskLE (reload today col a) (reload today col b) = taskLE a b := rfl

/-- Claim C3: `save_to_file` followed by the load path reproduces the
description, priority ordinal, start date and end date of every task in
every column (day offsets are recomputed), and each persisted record
carries exactly the keys description / priority / start_date / end_date
with the priority an integer between 1 and 4. -/
theorem claim3_save_load_roundtrip (today : Nat) (tasks : TasksMap) (col : String)
    (l1 : List Task) (hnd : (alKeys tasks).Nodup)
    (hget : alGet (save_to_file tasks).1 col = some l1) :
    (∀ p ∈ (save_to_file tasks).2, ∀ rec ∈ p.2,
      alKeys rec = ["description", "priority", "start_date", "end_date"] ∧
      ∃ n : Int, alGet rec "priority" = some (.jint n) ∧ 1 ≤ n ∧ n ≤ 4) ∧
    (∃ s2, generate_tasks_dict today (save_to_file tasks).1 (save_to_file tasks).2 =
        some s2 ∧
      ∃ l2, alGet s2 col = some l2 ∧ l2.map taskProj = l1.map taskProj) := by
  constructor
  · intro p hp rec hrec
    simp only [save_to_file, get_cleaned_tasks_dict, List.mem_map] at hp
    obtain ⟨⟨c, l⟩, _, rfl⟩ := hp
    simp only [List.mem_map] at hrec
    obtain ⟨t, _, rfl⟩ := hrec
    refine ⟨rfl, (t.priority.value : Int), ?_, ?_, ?_⟩
    · simp [clean_task, alGet]
    · cases t.priority <;> simp [TaskPriority.value]
    · cases t.priority <;> simp [TaskPriority.value]
  · have hs1 : (save_to_file tasks).1 = sort_tasks tasks := rfl
    have hdoc : (save_to_file tasks).2 = get_cleaned_tasks_dict (sort_tasks tasks) := rfl
    have hnd1 : (alKeys (sort_tasks tasks)).Nodup := by
      rw [alKeys_sort_tasks]; exact hnd
    rw [hs1] at hget
    have hmem : (col, l1) ∈ sort_tasks tasks := alGet_mem hget
    have hbuild := build_columns_clean today (sort_tasks tasks) (sort_tasks tasks)
    refine ⟨sort_tasks (reloadColumns today (sort_tasks tasks) (sort_tasks tasks)),
      ?_, ?_⟩
    · simp [generate_tasks_dict, hs1, hdoc, hbuild]
    · have hrcget := reloadColumns_get_in today (sort_tasks tasks)
        (sort_tasks tasks) col l1 hnd1 hmem
      rw [alGet_sort_tasks, hrcget]
      have hpw : l1.Pairwise (fun a b => taskLE a b = true) := by
        rw [alGet_sort_tasks] at hget
        cases h : alGet tasks col with
        | none => rw [h] at hget; simp at hget
        | some l0 =>
          rw [h] at hget
          simp at hget
          rw [← hget]
          exact mergeSort_taskLE_sorted l0
      have hpw2 : (l1.map (reload today col)).Pairwise (fun a b => taskLE a b = true) := by
        rw [List.pairwise_map]
        exact hpw.imp (fun h => by rw [taskLE_reload]; exact h)
      refine ⟨l1.map (reload today col), by simp [List.mergeSort_of_sorted hpw2], ?_⟩
      simp [List.map_map]
      intro a _
      rfl

/-- Witness for C3 on a concrete one-task store. -/
theorem claim3_save_load_roundtrip_witness :
    ∃ s2, generate_tasks_dict 20250101 (save_to_file [("inbox", [exTaskA])]).1
        (save_to_file [("inbox", [exTaskA])]).2 = some s2 ∧
      ∃ l2, alGet s2 "inbox" = some l2 ∧
        l2.map taskProj = [exTaskA].map taskProj := by
  have hget : alGet (save_to_file [("inbox", [exTaskA])]).1 "inbox" =
      some [exTaskA] := by
    simp [save_to_file, sort_tasks, alGet]
  exact (claim3_save_load_roundtrip 20250101 [("inbox", [exTaskA])] "inbox"
    [exTaskA] (by decide) hget).2

/-! ### Claim C4: ID generation - shared machinery -/

/-- Whether an operation returned normally. -/
def PyResult.isOk {α : Type} : PyResult α → Bool
  | .ok _ => true
  | .exn _ => false

/-- The freshly started Topics store: an empty consistently loaded
state. -/
def emptyTopics : TopicsState :=
  { heap := [], nextRef := 0, data := [], topics_by_id := [] }

/-- A schema-less configuration for concrete runs. -/
def exCfgEmpty : Config := { columns := [], columns_dict := [] }

/-- Create N topics in sequence through the controller, stopping at the
first escaped exception. -/
def runCreates (cfg : Config) (today : String) : Nat → TopicsState → PyResult TopicsState
  | 0, s => .ok s
  | n + 1, s =>
    match controller_create_new_topic cfg today s with
    | .ok s1 => runCreates cfg today n s1
    | .exn s1 => .exn s1

/-- The `'id'` values of the primary list, in list order. -/
def idVals (s : TopicsState) : List (Option FieldValue) :=
  s.data.map (fun r => alGet (s.deref r) "id")

theorem alGet_append {κ α : Type} [DecidableEq κ] (l1 l2 : List (κ × α)) (q : κ) :
    alGet (l1 ++ l2) q =
      match alGet l1 q with
      | some v => some v
      | none => alGet l2 q := by
  induction l1 with
  | nil => simp [alGet]
  | cons p r ih =>
    obtain ⟨k, v⟩ := p
    by_cases h : q = k <;> simp [alGet, h, ih]

theorem alGet_none_of_keys_lt {α : Type} (l : List (Nat × α)) (q : Nat)
    (h : ∀ p ∈ l, p.1 < q) : alGet l q = none := by
  induction l with
  | nil => rfl
  | cons p r ih =>
    obtain ⟨k, v⟩ := p
    have hk := h (k, v) (by simp)
    have : q ≠ k := by simp at hk; omega
    simp [alGet, this]
    exact ih (fun p hp => h p (by simp [hp]))

theorem alSet_not_mem {κ α : Type} [DecidableEq κ] (l : List (κ × α)) (q : κ) (w : α)
    (h : q ∉ alKeys l) : alSet l q w = l ++ [(q, w)] := by
  induction l with
  | nil => rfl
  | cons p r ih =>
    obtain ⟨k, v⟩ := p
    simp [alKeys] at h
    simp [alSet, h.1, ih (by simp [alKeys, h.2])]

theorem optMapM_forall_mem {α β : Type} (f : α → Option β) (h : α → β)
    (l : List α) (hf : ∀ x ∈ l, f x = some (h x)) :
    optMapM f l = some (l.map h) := by
  induction l with
  | nil => rfl
  | cons a r ih =>
    simp [optMapM, hf a (by simp), ih (fun x hx => hf x (by simp [hx]))]

theorem foldl_max_le (r : List Int) : ∀ (acc M : Int), acc ≤ M →
    (∀ x ∈ r, x ≤ M) → r.foldl max acc ≤ M := by
  induction r with
  | nil => intro acc M h _; simpa using h
  | cons a t ih =>
    intro acc M hacc hub
    simp only [List.foldl_cons]
    exact ih _ M (max_le hacc (hub a (by simp))) (fun x hx => hub x (by simp [hx]))

theorem le_foldl_max (r : List Int) : ∀ (acc : Int), acc ≤ r.foldl max acc := by
  induction r with
  | nil => simp
  | cons a t ih =>
    intro acc
    simp only [List.foldl_cons]
    exact le_trans (le_max_left acc a) (ih (max acc a))

theorem mem_le_foldl_max (r : List Int) : ∀ (acc x : Int), x ∈ r →
    x ≤ r.foldl max acc := by
  induction r with
  | nil => intro acc x h; simp at h
  | cons a t ih =>
    intro acc x hx
    simp only [List.foldl_cons]
    rcases List.mem_cons.mp hx with rfl | hmem
    · exact le_trans (le_max_right acc x) (le_foldl_max t _)
    · exact ih _ x hmem

theorem intMaxD_eq_of_mem (l : List Int) (d M : Int) (hM : M ∈ l)
    (hub : ∀ x ∈ l, x ≤ M) : intMaxD l d = M := by
  cases l with
  | nil => simp at hM
  | cons a r =>
    refine le_antisymm ?_ ?_
    · exact foldl_max_le r a M (hub a (by simp)) (fun x hx => hub x (by simp [hx]))
    · rcases List.mem_cons.mp hM with rfl | hmem
      · exact le_foldl_max r M
      · exact mem_le_foldl_max r a M hmem

theorem recEquiv_refl (r : Record) : recEquiv r r = true := by
  simp [recEquiv, List.all_eq_true]

theorem recEquiv_of_id_ne (r1 r2 : Record) (v1 v2 : FieldValue)
    (h1 : alGet r1 "id" = some v1) (h2 : alGet r2 "id" = some v2)
    (hne : v1 ≠ v2) : recEquiv r1 r2 = false := by
  by_contra h
  have heq : recEquiv r1 r2 = true := by
    cases hcase : recEquiv r1 r2
    · exact absurd hcase h
    · rfl
  have hmem : ("id", v1) ∈ r1 := alGet_mem h1
  have := (List.all_eq_true.mp (Bool.and_elim_left heq)) ("id", v1) hmem
  simp only [decide_eq_true_eq] at this
  rw [h1, h2] at this
  exact hne (Option.some_inj.mp this).symm

theorem alGet_ne_nil {κ α : Type} [DecidableEq κ] {l : List (κ × α)} {k : κ} {v : α}
    (h : alGet l k = some v) : l ≠ [] := by
  intro hnil
  rw [hnil] at h
  simp [alGet] at h

theorem alKeys_alSet_nodup {κ α : Type} [DecidableEq κ] (l : List (κ × α)) (k : κ)
    (v : α) (h : (alKeys l).Nodup) : (alKeys (alSet l k v)).Nodup := by
  rw [alKeys_alSet]
  by_cases hm : k ∈ alKeys l
  · simpa [hm] using h
  · rw [if_neg hm]
    exact List.Nodup.append h (by simp) (by simp [List.disjoint_singleton, hm])

theorem alGet_foldl_blank_not_mem (cols : List FieldDefinition) : ∀ (t : Record)
    (k : String), (∀ c ∈ cols, c.name ≠ k) →
    alGet (cols.foldl (fun t c => alSet t c.name (.vStr "")) t) k = alGet t k := by
  induction cols with
  | nil => intro t k _; rfl
  | cons c rest ih =>
    intro t k hk
    simp only [List.foldl_cons]
    rw [ih _ k (fun c' hc' => hk c' (by simp [hc']))]
    exact alGet_alSet_ne _ _ _ _ (Ne.symm (hk c (by simp)))

theorem alKeys_foldl_blank_mem (cols : List FieldDefinition) : ∀ (t : Record)
    (k : String), k ∈ alKeys t →
    k ∈ alKeys (cols.foldl (fun t c => alSet t c.name (.vStr "")) t) := by
  induction cols with
  | nil => intro t k h; exact h
  | cons c rest ih =>
    intro t k hk
    simp only [List.foldl_cons]
    refine ih _ k ?_
    rw [alKeys_alSet]
    by_cases hm : c.name ∈ alKeys t <;> simp [hm, hk]

theorem alKeys_foldl_blank_sub (cols : List FieldDefinition) : ∀ (t : Record)
    (k : String), k ∈ alKeys (cols.foldl (fun t c => alSet t c.name (.vStr "")) t) →
    k ∈ alKeys t ∨ ∃ c ∈ cols, c.name = k := by
  induction cols with
  | nil => intro t k h; exact Or.inl h
  | cons c rest ih =>
    intro t k hk
    simp only [List.foldl_cons] at hk
    rcases ih _ k hk with h | ⟨c', hc', rfl⟩
    · rw [alKeys_alSet] at h
      by_cases hm : c.name ∈ alKeys t
      · rw [if_pos hm] at h
        exact Or.inl h
      · rw [if_neg hm] at h
        rcases List.mem_append.mp h with h | h
        · exact Or.inl h
        · simp at h
          exact Or.inr ⟨c, by simp, h.symm⟩
    · exact Or.inr ⟨c', by simp [hc'], rfl⟩

theorem alKeys_foldl_blank_nodup (cols : List FieldDefinition) : ∀ (t : Record),
    (alKeys t).Nodup →
    (alKeys (cols.foldl (fun t c => alSet t c.name (.vStr "")) t)).Nodup := by
  induction cols with
  | nil => intro t h; exact h
  | cons c rest ih =>
    intro t h
    simp only [List.foldl_cons]
    exact ih _ (alKeys_alSet_nodup _ _ _ h)

/-- Normal completion of the controller's create once the ID scan
succeeded: the store gains exactly one record, carrying the generated
integer ID, appended to the primary list, indexed under the ID. -/
theorem controller_create_ok (cfg : Config) (today : String) (s : TopicsState)
    (nid : Int) (hnid : controller_new_id s = some nid)
    (hcfg_id : ∀ c ∈ cfg.columns, c.name ≠ "id")
    (hdict : ∀ c ∈ cfg.columns, (alGet cfg.columns_dict c.name).isSome) :
    ∃ out, alGet out "id" = some (.vInt nid) ∧
      controller_create_new_topic cfg today s =
        .ok { heap := s.heap ++ [(s.nextRef, out)], nextRef := s.nextRef + 1,
              data := s.data ++ [s.nextRef],
              topics_by_id := alSet s.topics_by_id nid s.nextRef } := by
  set base : Record := [("id", .vInt nid)] with hbase
  set topic0 : Record := cfg.columns.foldl (fun t c => alSet t c.name (.vStr "")) base
    with htopic0
  have hid0 : alGet topic0 "id" = some (.vInt nid) := by
    rw [htopic0, alGet_foldl_blank_not_mem cfg.columns base "id" hcfg_id]
    simp [hbase, alGet]
  have hidmem : "id" ∈ alKeys topic0 :=
    alKeys_foldl_blank_mem cfg.columns base "id" (by simp [hbase, alKeys])
  have hnd : (alKeys topic0).Nodup :=
    alKeys_foldl_blank_nodup cfg.columns base (by simp [hbase, alKeys])
  have hcfg : ∀ k ∈ (alKeys topic0).erase "id", (alGet cfg.columns_dict k).isSome := by
    intro k hk
    have hk2 := hnd.mem_erase_iff.mp hk
    rcases alKeys_foldl_blank_sub cfg.columns base k hk2.2 with h | ⟨c, hc, rfl⟩
    · simp [hbase, alKeys] at h
      exact absurd h hk2.1
    · exact hdict c hc
  obtain ⟨out, hout, hkeys, hne, hrule⟩ :=
    apply_fields_spec cfg today .NEW ((alKeys topic0).erase "id") topic0
      (hnd.erase "id")
      (fun k hk => (hnd.mem_erase_iff.mp hk).2)
      hcfg
  have houtid : alGet out "id" = some (.vInt nid) := by
    rw [hne "id" (fun h => (hnd.mem_erase_iff.mp h).1 rfl), hid0]
  refine ⟨out, houtid, ?_⟩
  have happ : apply_field_function cfg today topic0 .NEW = some out := by
    simpa [apply_field_function, hidmem] using hout
  simp [controller_create_new_topic, hnid, ← htopic0, happ, create_new_topic,
    houtid, pyInt]

theorem alGet_append_single_ne {α : Type} (l : List (Nat × α)) (a q : Nat) (v : α)
    (h : q ≠ a) : alGet (l ++ [(a, v)]) q = alGet l q := by
  rw [alGet_append]
  cases hc : alGet l q <;> simp [alGet, h]

/-- The shape of the Topics store after `k` controller creates from the
empty store: references `0..k-1` in order, record `i` carrying id `i+1`,
the index mapping `i+1 ↦ i`. -/
def C4Inv (s : TopicsState) (k : Nat) : Prop :=
  s.data = List.range' 0 k ∧
  s.nextRef = k ∧
  s.topics_by_id = (List.range' 0 k).map (fun i => (((i : Nat) : Int) + 1, i)) ∧
  (∀ i ∈ s.data, alGet (s.deref i) "id" = some (.vInt ((i : Int) + 1))) ∧
  (∀ p ∈ s.heap, p.1 < s.nextRef)

theorem c4_new_id (s : TopicsState) (k : Nat) (hinv : C4Inv s k) :
    controller_new_id s = some ((k : Int) + 1) := by
  obtain ⟨hdata, hnext, hidx, hids, hheap⟩ := hinv
  have h1 : optMapM (fun r => alGet (s.deref r) "id") s.data =
      some (s.data.map (fun (i : Nat) => .vInt ((i : Int) + 1))) :=
    optMapM_forall_mem _ _ _ hids
  have h2 : optMapM (fun v => match v with
      | FieldValue.vInt n => some n
      | FieldValue.vBool b => some (if b then (1 : Int) else 0)
      | FieldValue.vStr _ => none)
      (s.data.map (fun (i : Nat) => FieldValue.vInt ((i : Int) + 1))) =
      some (s.data.map (fun (i : Nat) => (i : Int) + 1)) :=
    optMapM_map_some
      (fun v => match v with
        | FieldValue.vInt n => some n
        | FieldValue.vBool b => some (if b then (1 : Int) else 0)
        | FieldValue.vStr _ => none)
      (fun (i : Nat) => FieldValue.vInt ((i : Int) + 1))
      (fun (i : Nat) => (i : Int) + 1)
      s.data (fun i => rfl)
  have h3 : intMaxD (s.data.map (fun (i : Nat) => (i : Int) + 1)) 0 = (k : Int) := by
    cases k with
    | zero => simp [hdata, intMaxD]
    | succ j =>
      refine intMaxD_eq_of_mem _ _ _ ?_ ?_
      · rw [hdata]
        simp only [List.mem_map]
        refine ⟨j, ?_, by push_cast; ring⟩
        simp [List.mem_range'_1]
      · intro x hx
        rw [hdata] at hx
        simp only [List.mem_map, List.mem_range'_1] at hx
        obtain ⟨i, hi, rfl⟩ := hx
        omega
  simp [controller_new_id, h1, h2, h3]

theorem c4_step (cfg : Config) (today : String) (s : TopicsState) (k : Nat)
    (hinv : C4Inv s k)
    (hcfg_id : ∀ c ∈ cfg.columns, c.name ≠ "id")
    (hdict : ∀ c ∈ cfg.columns, (alGet cfg.columns_dict c.name).isSome) :
    ∃ s', controller_create_new_topic cfg today s = .ok s' ∧ C4Inv s' (k + 1) := by
  have hnid := c4_new_id s k hinv
  obtain ⟨hdata, hnext, hidx, hids, hheap⟩ := hinv
  obtain ⟨out, houtid, hok⟩ :=
    controller_create_ok cfg today s ((k : Int) + 1) hnid hcfg_id hdict
  refine ⟨_, hok, ?_, ?_, ?_, ?_, ?_⟩
  · show s.data ++ [s.nextRef] = List.range' 0 (k + 1)
    rw [hdata, hnext, List.range'_1_concat]
    simp
  · show s.nextRef + 1 = k + 1
    rw [hnext]
  · show alSet s.topics_by_id ((k : Int) + 1) s.nextRef =
      (List.range' 0 (k + 1)).map (fun i => (((i : Nat) : Int) + 1, i))
    rw [hidx, hnext, alSet_not_mem, List.range'_1_concat]
    · simp
    · intro hmem
      simp only [alKeys, List.map_map, List.mem_map, Function.comp_apply] at hmem
      obtain ⟨i, hi, hcast⟩ := hmem
      simp only [List.mem_range'_1] at hi
      omega
  · intro i hi
    show alGet (((alGet (s.heap ++ [(s.nextRef, out)]) i).getD []) : Record) "id" =
      some (.vInt ((i : Int) + 1))
    have hi2 : i ∈ s.data ++ [s.nextRef] := hi
    rcases List.mem_append.mp hi2 with hmem | hmem
    · have hlt : i < k := by
        rw [hdata] at hmem
        simpa [List.mem_range'_1] using hmem
      rw [alGet_append_single_ne _ _ _ _ (by omega : i ≠ s.nextRef)]
      exact hids i hmem
    · simp only [List.mem_singleton] at hmem
      subst hmem
      have hnone : alGet s.heap s.nextRef = none :=
        alGet_none_of_keys_lt _ _ hheap
      rw [alGet_append, hnone]
      rw [show alGet [(s.nextRef, out)] s.nextRef = some out by simp [alGet]]
      rw [Option.getD_some, houtid, hnext]
  · intro p hp
    have hp2 : p ∈ s.heap ++ [(s.nextRef, out)] := hp
    show p.1 < s.nextRef + 1
    rcases List.mem_append.mp hp2 with hmem | hmem
    · have := hheap p hmem
      omega
    · simp only [List.mem_singleton] at hmem
      subst hmem
      omega

theorem runCreates_inv (cfg : Config) (today : String)
    (hcfg_id : ∀ c ∈ cfg.columns, c.name ≠ "id")
    (hdict : ∀ c ∈ cfg.columns, (alGet cfg.columns_dict c.name).isSome) :
    ∀ (n : Nat) (s : TopicsState) (k : Nat), C4Inv s k →
    ∃ s', runCreates cfg today n s = .ok s' ∧ C4Inv s' (k + n) := by
  intro n
  induction n with
  | zero => exact fun s k h => ⟨s, rfl, h⟩
  | succ m ih =>
    intro s k h
    obtain ⟨s1, hok, hinv1⟩ := c4_step cfg today s k h hcfg_id hdict
    obtain ⟨s', hrun, hinv'⟩ := ih s1 (k + 1) hinv1
    refine ⟨s', ?_, ?_⟩
    · simp [runCreates, hok, hrun]
    · have harith : k + (m + 1) = k + 1 + m := by omega
      rw [harith]
      exact hinv'

theorem c4_delete (s : TopicsState) (m : Nat) (hinv : C4Inv s (m + 3)) :
    ∃ s', delete_topic s 2 = .ok s' ∧
      s'.data = 0 :: List.range' 2 (m + 1) ∧
      s'.nextRef = m + 3 ∧
      s'.heap = s.heap ∧
      (∀ i ∈ s'.data, alGet (s'.deref i) "id" = some (.vInt ((i : Int) + 1))) := by
  obtain ⟨hdata, hnext, hidx, hids, hheap⟩ := hinv
  have hr : List.range' 0 (m + 3) = 0 :: 1 :: List.range' 2 (m + 1) := by
    rw [List.range'_succ, List.range'_succ]
  have h0mem : (0 : Nat) ∈ s.data := by rw [hdata, hr]; simp
  have h1mem : (1 : Nat) ∈ s.data := by rw [hdata, hr]; simp
  have hid0 : alGet (s.deref 0) "id" = some (.vInt 1) := by
    simpa using hids 0 h0mem
  have hid1 : alGet (s.deref 1) "id" = some (.vInt 2) := by
    simpa using hids 1 h1mem
  have hidxget : alGet s.topics_by_id 2 = some 1 := by
    rw [hidx, hr]
    simp [alGet]
  have hp0 : recEquiv (s.deref 0) (s.deref 1) = false :=
    recEquiv_of_id_ne _ _ _ _ hid0 hid1 (by simp)
  have hp1 : recEquiv (s.deref 1) (s.deref 1) = true := recEquiv_refl _
  have hne : s.deref 1 ≠ [] := alGet_ne_nil hid1
  have hfind : s.data.findIdx? (fun r => recEquiv (s.deref r) (s.deref 1)) = some 1 := by
    rw [hdata, hr]
    simp [List.findIdx?_cons, hp0, hp1]
  have hne' : ({ s with topics_by_id := alErase s.topics_by_id 2 } : TopicsState).deref 1
      ≠ [] := hne
  have hfind' : ({ s with topics_by_id := alErase s.topics_by_id 2 } : TopicsState).data.findIdx?
      (fun r => recEquiv
        (({ s with topics_by_id := alErase s.topics_by_id 2 } : TopicsState).deref r)
        (({ s with topics_by_id := alErase s.topics_by_id 2 } : TopicsState).deref 1)) =
      some 1 := hfind
  have hdel : delete_topic s 2 =
      .ok { s with topics_by_id := alErase s.topics_by_id 2, data := s.data.eraseIdx 1 } := by
    simp only [delete_topic, hidxget, if_neg hne', hfind']
  refine ⟨_, hdel, ?_, ?_, ?_, ?_⟩
  · show s.data.eraseIdx 1 = 0 :: List.range' 2 (m + 1)
    rw [hdata, hr]
    rfl
  · exact hnext
  · rfl
  · intro i hi
    have hi2 : i ∈ s.data.eraseIdx 1 := hi
    rw [hdata, hr] at hi2
    rw [show (0 :: 1 :: List.range' 2 (m + 1)).eraseIdx 1 =
        0 :: List.range' 2 (m + 1) from rfl] at hi2
    have hi3 : i ∈ s.data := by
      rw [hdata, hr]
      rcases List.mem_cons.mp hi2 with rfl | hmem
      · simp
      · simp [hmem]
    exact hids i hi3

theorem c4_final_new_id (s : TopicsState) (m : Nat)
    (hdata : s.data = 0 :: List.range' 2 (m + 1))
    (hids : ∀ i ∈ s.data, alGet (s.deref i) "id" = some (.vInt ((i : Int) + 1))) :
    controller_new_id s = some ((m : Int) + 4) := by
  have h1 : optMapM (fun r => alGet (s.deref r) "id") s.data =
      some (s.data.map (fun (i : Nat) => .vInt ((i : Int) + 1))) :=
    optMapM_forall_mem _ _ _ hids
  have h2 : optMapM (fun v => match v with
      | FieldValue.vInt n => some n
      | FieldValue.vBool b => some (if b then (1 : Int) else 0)
      | FieldValue.vStr _ => none)
      (s.data.map (fun (i : Nat) => FieldValue.vInt ((i : Int) + 1))) =
      some (s.data.map (fun (i : Nat) => (i : Int) + 1)) :=
    optMapM_map_some
      (fun v => match v with
        | FieldValue.vInt n => some n
        | FieldValue.vBool b => some (if b then (1 : Int) else 0)
        | FieldValue.vStr _ => none)
      (fun (i : Nat) => FieldValue.vInt ((i : Int) + 1))
      (fun (i : Nat) => (i : Int) + 1)
      s.data (fun i => rfl)
  have h3 : intMaxD (s.data.map (fun (i : Nat) => (i : Int) + 1)) 0 = (m : Int) + 3 := by
    refine intMaxD_eq_of_mem _ _ _ ?_ ?_
    · rw [hdata]
      simp only [List.mem_map]
      refine ⟨m + 2, ?_, by push_cast; ring⟩
      simp [List.mem_range'_1]
      omega
    · intro x hx
      rw [hdata] at hx
      simp only [List.mem_map, List.mem_cons, List.mem_range'_1] at hx
      obtain ⟨i, hi, rfl⟩ := hx
      rcases hi with rfl | hi <;> omega
  have h4 : ((m : Int) + 3) + 1 = (m : Int) + 4 := by ring
  simp [controller_new_id, h1, h2, h3, h4]

/-- Claim C4 (amended): creating N topics in sequence from the empty
store yields IDs exactly 1..N in creation order; for N ≥ 3, deleting the
topic with id 2 and creating again yields id N+1 and id 2 is never
reused.  (For N = 2 the deleted id 2 is the maximum, so the max-scan
regenerates it - see the counterexample.)  Hypotheses: no schema column
is named `id` and every schema column is in the name index, as the
config loader guarantees. -/
theorem claim4_id_allocation (cfg : Config) (today : String) (N : Nat)
    (hN : 3 ≤ N)
    (hcfg_id : ∀ c ∈ cfg.columns, c.name ≠ "id")
    (hdict : ∀ c ∈ cfg.columns, (alGet cfg.columns_dict c.name).isSome) :
    ∃ sN, runCreates cfg today N emptyTopics = .ok sN ∧
      idVals sN = (List.range' 0 N).map (fun (i : Nat) => some (.vInt ((i : Int) + 1))) ∧
      ∃ sD, delete_topic sN 2 = .ok sD ∧
        controller_new_id sD = some ((N : Int) + 1) ∧
        ∃ sF, controller_create_new_topic cfg today sD = .ok sF ∧
          idVals sF = idVals sD ++ [some (.vInt ((N : Int) + 1))] ∧
          some (.vInt 2) ∉ idVals sF := by
  obtain ⟨m, rfl⟩ : ∃ m, N = m + 3 := ⟨N - 3, by omega⟩
  have hinv0 : C4Inv emptyTopics 0 := by
    refine ⟨rfl, rfl, rfl, ?_, ?_⟩ <;> intro x hx <;> simp [emptyTopics] at hx
  obtain ⟨sN, hrun, hinvN⟩ :=
    runCreates_inv cfg today hcfg_id hdict (m + 3) emptyTopics 0 hinv0
  rw [show 0 + (m + 3) = m + 3 by omega] at hinvN
  have hvalsN : idVals sN =
      (List.range' 0 (m + 3)).map (fun (i : Nat) => some (.vInt ((i : Int) + 1))) := by
    obtain ⟨hdata, _, _, hids, _⟩ := hinvN
    rw [idVals, hdata]
    refine List.map_congr_left ?_
    intro i hi
    exact hids i (by rw [hdata]; exact hi)
  obtain ⟨sD, hdel, hDdata, hDnext, hDheap, hDids⟩ := c4_delete sN m hinvN
  have hDnid : controller_new_id sD = some ((m : Int) + 4) :=
    c4_final_new_id sD m hDdata hDids
  obtain ⟨out, houtid, hok⟩ :=
    controller_create_ok cfg today sD ((m : Int) + 4) hDnid hcfg_id hdict
  have hDbound : ∀ i ∈ sD.data, i < sD.nextRef := by
    intro i hi
    rw [hDdata] at hi
    rw [hDnext]
    rcases List.mem_cons.mp hi with rfl | hmem
    · omega
    · simp [List.mem_range'_1] at hmem
      omega
  have hcastN : ((m + 3 : Nat) : Int) + 1 = (m : Int) + 4 := by push_cast; ring
  have hvalsF : idVals { heap := sD.heap ++ [(sD.nextRef, out)],
                         nextRef := sD.nextRef + 1,
                         data := sD.data ++ [sD.nextRef],
                         topics_by_id :=
                           alSet sD.topics_by_id ((m : Int) + 4) sD.nextRef } =
      idVals sD ++ [some (.vInt ((m : Int) + 4))] := by
    rw [idVals, idVals]
    simp only [List.map_append]
    congr 1
    · refine List.map_congr_left ?_
      intro i hi
      have hlt := hDbound i hi
      show alGet ((alGet (sD.heap ++ [(sD.nextRef, out)]) i).getD []) "id" = _
      rw [alGet_append_single_ne _ _ _ _ (by omega : i ≠ sD.nextRef)]
      rfl
    · have hnone : alGet sD.heap sD.nextRef = none := by
        obtain ⟨_, hNnext, _, _, hheapN⟩ := hinvN
        refine alGet_none_of_keys_lt _ _ ?_
        intro p hp
        rw [hDheap] at hp
        rw [hDnext]
        have := hheapN p hp
        omega
      show [alGet ((alGet (sD.heap ++ [(sD.nextRef, out)]) sD.nextRef).getD []) "id"] = _
      rw [alGet_append, hnone]
      rw [show alGet [(sD.nextRef, out)] sD.nextRef = some out by simp [alGet]]
      rw [Option.getD_some, houtid]
  refine ⟨sN, hrun, by rw [hvalsN], sD, hdel, by rw [hDnid, hcastN], _, hok,
    by rw [hvalsF, hcastN], ?_⟩
  rw [hvalsF]
  intro hmem
  rcases List.mem_append.mp hmem with hmem | hmem
  · have hvalsD : idVals sD =
        (0 :: List.range' 2 (m + 1)).map (fun (i : Nat) => some (.vInt ((i : Int) + 1))) := by
      rw [idVals, hDdata]
      refine List.map_congr_left ?_
      intro i hi
      exact hDids i (by rw [hDdata]; exact hi)
    rw [hvalsD] at hmem
    simp only [List.mem_map, List.mem_cons, List.mem_range'_1] at hmem
    obtain ⟨i, hi, heq⟩ := hmem
    have hcast2 : (i : Int) + 1 = 2 := by
      injection heq with h1
      injection h1 with h2
    rcases hi with rfl | hi <;> omega
  · simp only [List.mem_singleton] at hmem
    have hcast3 : (2 : Int) = (m : Int) + 4 := by
      injection hmem with h1
      injection h1 with h2
    omega

/-- Witness for the amended C4 at N = 3 with a concrete schema. -/
theorem claim4_id_allocation_witness :
    ∃ sN, runCreates exCfg "2025-06-01" 3 emptyTopics = .ok sN ∧
      idVals sN = (List.range' 0 3).map (fun (i : Nat) => some (.vInt ((i : Int) + 1))) ∧
      ∃ sD, delete_topic sN 2 = .ok sD ∧
        controller_new_id sD = some ((3 : Int) + 1) ∧
        ∃ sF, controller_create_new_topic exCfg "2025-06-01" sD = .ok sF ∧
          idVals sF = idVals sD ++ [some (.vInt ((3 : Int) + 1))] ∧
          some (.vInt 2) ∉ idVals sF := by
  have h := claim4_id_allocation exCfg "2025-06-01" 3 (by omega)
    (by decide) (by decide)
  simpa using h

/-- Counterexample to C4 as frozen, at N = 2: after creating topics 1 and
2 from the empty store and deleting topic 2 (the current maximum), the
next creation reuses id 2 instead of producing N + 1 = 3. -/
theorem claim4_counterexample :
    (runCreates exCfgEmpty "2025-06-01" 2 emptyTopics).isOk = true ∧
    idVals (runCreates exCfgEmpty "2025-06-01" 2 emptyTopics).state =
      [some (.vInt 1), some (.vInt 2)] ∧
    (delete_topic (runCreates exCfgEmpty "2025-06-01" 2 emptyTopics).state 2).isOk
      = true ∧
    controller_new_id
      (delete_topic (runCreates exCfgEmpty "2025-06-01" 2 emptyTopics).state 2).state
      = some 2 ∧
    idVals (controller_create_new_topic exCfgEmpty "2025-06-01"
      (delete_topic (runCreates exCfgEmpty "2025-06-01" 2 emptyTopics).state 2).state).state
      = [some (.vInt 1), some (.vInt 2)] := by
  decide

/-! ### Claim C2: list/index consistency of the Topics store -/

/-- A store operation of the kind the claim quantifies over. -/
inductive TopicsOp
  | create (topic : Record)
  | delete (topic_id : Int)

/-- Run one store operation. -/
def applyOp (s : TopicsState) : TopicsOp → PyResult TopicsState
  | .create topic => create_new_topic s topic
  | .delete topic_id => delete_topic s topic_id

/-- Run a sequence of store operations, stopping at an escaped
exception. -/
def runOps (s : TopicsState) : List TopicsOp → PyResult TopicsState
  | [] => .ok s
  | op :: rest =>
    match applyOp s op with
    | .ok s1 => runOps s1 rest
    | .exn s1 => .exn s1

/-- The castable integer ids of the records in the primary list. -/
def dataIdInts (s : TopicsState) : List Int :=
  s.data.filterMap (fun r => (alGet (s.deref r) "id").bind pyInt)

/-- Operations the amended claim admits: deletes, and creates whose
record carries an integer-castable id that is fresh for the store (the
controller's `max + 1` allocation guarantees this). -/
def opSafe (s : TopicsState) : TopicsOp → Bool
  | .create topic =>
    match (alGet topic "id").bind pyInt with
    | some n => decide (n ∉ dataIdInts s)
    | none => false
  | .delete _ => true

/-- Every operation of the sequence is admissible in the state it runs
in. -/
def safeRun (s : TopicsState) : List TopicsOp → Bool
  | [] => true
  | op :: rest => opSafe s op && safeRun (applyOp s op).state rest

/-- The consistency the claim asserts, on Python value equality: every
indexed ID maps to a record present (by `==`) in the primary list, and
every record of the primary list carrying an `id` field is reachable
through the index. -/
def claimInvB (s : TopicsState) : Bool :=
  (s.topics_by_id.all fun p => s.data.any fun r => recEquiv (s.deref r) (s.deref p.2)) &&
  (s.data.all fun r =>
    match alGet (s.deref r) "id" with
    | none => true
    | some v =>
      match pyInt v with
      | none => false
      | some n =>
        match alGet s.topics_by_id n with
        | none => false
        | some ref => recEquiv (s.deref ref) (s.deref r))

/-- A consistently loaded Topics store for the counterexample: one
record, with an extra field, indexed under its id. -/
def exC2Start : TopicsState :=
  { heap := [(0, [("id", .vInt 1), ("extra", .vStr "x")])], nextRef := 1,
    data := [0], topics_by_id := [(1, 0)] }

/-- Counterexample to C2 as frozen: updating the consistent store with a
record object distinct from the indexed one (here dropping the `extra`
key) returns normally but leaves the index holding the field-merged old
object, which no longer equals - not even by value - any record of the
primary list, and the appended record unreachable from the index. -/
theorem claim2_counterexample :
    claimInvB exC2Start = true ∧
    (update_topic exC2Start 1 [("id", .vInt 1)]).isOk = true ∧
    claimInvB (update_topic exC2Start 1 [("id", .vInt 1)]).state = false := by
  decide

/-- The strengthened store invariant carried through create/delete
sequences: reference bounds, duplicate-freeness, the reference-level
two-way correspondence between index and primary list, and
distinctness of the record ids. -/
def StrongInv (s : TopicsState) : Prop :=
  (∀ p ∈ s.heap, p.1 < s.nextRef) ∧
  (∀ r ∈ s.data, r < s.nextRef) ∧
  (∀ p ∈ s.topics_by_id, p.2 < s.nextRef) ∧
  s.data.Nodup ∧
  (alKeys s.topics_by_id).Nodup ∧
  (∀ p ∈ s.topics_by_id, p.2 ∈ s.data ∧
    ∃ v, alGet (s.deref p.2) "id" = some v ∧ pyInt v = some p.1) ∧
  (∀ r ∈ s.data, ∀ v, alGet (s.deref r) "id" = some v →
    ∃ n, pyInt v = some n ∧ alGet s.topics_by_id n = some r) ∧
  (∀ r1 ∈ s.data, ∀ r2 ∈ s.data, ∀ n : Int,
    (alGet (s.deref r1) "id").bind pyInt = some n →
    (alGet (s.deref r2) "id").bind pyInt = some n → r1 = r2)

theorem alGet_none_of_not_mem_keys {κ α : Type} [DecidableEq κ] (l : List (κ × α))
    (q : κ) (h : q ∉ alKeys l) : alGet l q = none := by
  induction l with
  | nil => rfl
  | cons p r ih =>
    obtain ⟨k, v⟩ := p
    simp [alKeys] at h
    simp [alGet, h.1, ih (by simp [alKeys, h.2])]

theorem alGet_append_left {κ α : Type} [DecidableEq κ] (l1 l2 : List (κ × α))
    (q : κ) (v : α) (h : alGet l1 q = some v) : alGet (l1 ++ l2) q = some v := by
  rw [alGet_append, h]

theorem alErase_subset {κ α : Type} [DecidableEq κ] (l : List (κ × α)) (q : κ)
    (p : κ × α) (h : p ∈ alErase l q) : p ∈ l := by
  induction l with
  | nil => simp [alErase] at h
  | cons e r ih =>
    obtain ⟨k, v⟩ := e
    by_cases hk : q = k
    · simp [alErase, hk] at h
      simp [h]
    · simp only [alErase, if_neg hk] at h
      rcases List.mem_cons.mp h with rfl | hmem
      · simp
      · simp [ih hmem]

theorem alKeys_alErase_nodup {κ α : Type} [DecidableEq κ] (l : List (κ × α)) (q : κ)
    (h : (alKeys l).Nodup) : (alKeys (alErase l q)).Nodup := by
  induction l with
  | nil => simpa [alErase] using h
  | cons e r ih =>
    obtain ⟨k, v⟩ := e
    rcases List.nodup_cons.mp h with ⟨hk, hr⟩
    by_cases hq : q = k
    · simpa [alErase, hq] using hr
    · simp only [alErase, if_neg hq]
      refine List.nodup_cons.mpr ⟨?_, ih hr⟩
      intro hmem
      refine hk ?_
      simp only [alKeys, List.mem_map] at hmem ⊢
      obtain ⟨p, hp, rfl⟩ := hmem
      exact ⟨p, alErase_subset r q p hp, rfl⟩

theorem alGet_alErase_ne {κ α : Type} [DecidableEq κ] (l : List (κ × α)) (q q' : κ)
    (h : q' ≠ q) : alGet (alErase l q) q' = alGet l q' := by
  induction l with
  | nil => rfl
  | cons e r ih =>
    obtain ⟨k, v⟩ := e
    by_cases hq : q = k
    · subst hq
      simp [alErase, alGet, h]
    · by_cases hq' : q' = k <;> simp [alErase, alGet, hq, hq', ih]

theorem alErase_key_ne {κ α : Type} [DecidableEq κ] (l : List (κ × α)) (q : κ)
    (hnd : (alKeys l).Nodup) (p : κ × α) (h : p ∈ alErase l q) : p.1 ≠ q := by
  induction l with
  | nil => simp [alErase] at h
  | cons e r ih =>
    obtain ⟨k, v⟩ := e
    rcases List.nodup_cons.mp hnd with ⟨hk, hr⟩
    by_cases hq : q = k
    · subst hq
      simp only [alErase, if_pos rfl] at h
      intro hpq
      exact hk (by simp only [alKeys, List.mem_map]; exact ⟨p, h, hpq⟩)
    · simp only [alErase, if_neg hq] at h
      rcases List.mem_cons.mp h with rfl | hmem
      · exact fun hpq => hq (hpq ▸ rfl)
      · exact ih hr hmem

theorem eraseIdx_facts {α : Type} [DecidableEq α] (l : List α) (i : Nat)
    (h : i < l.length) (hnd : l.Nodup) :
    (l.eraseIdx i).Nodup ∧ (∀ x, x ∈ l.eraseIdx i ↔ x ∈ l ∧ x ≠ l[i]) := by
  have herase : l.eraseIdx i = l.take i ++ l.drop (i + 1) :=
    List.eraseIdx_eq_take_drop_succ l i
  have hdropeq : l[i] :: l.drop (i + 1) = l.drop i := List.getElem_cons_drop l i h
  have hsplit : l.take i ++ l[i] :: l.drop (i + 1) = l := by
    rw [hdropeq, List.take_append_drop]
  have hnd2 : (l.take i ++ l[i] :: l.drop (i + 1)).Nodup := by rw [hsplit]; exact hnd
  rw [List.nodup_append] at hnd2
  obtain ⟨hnd_take, hnd_cons, hdisj⟩ := hnd2
  rcases List.nodup_cons.mp hnd_cons with ⟨hnotin_drop, hnd_drop⟩
  have hnotin_take : l[i] ∉ l.take i := fun hmem => hdisj hmem (List.mem_cons_self _ _)
  refine ⟨?_, ?_⟩
  · rw [herase, List.nodup_append]
    exact ⟨hnd_take, hnd_drop, fun x hx hx2 => hdisj hx (List.mem_cons_of_mem _ hx2)⟩
  · intro x
    constructor
    · intro hx
      rw [herase, List.mem_append] at hx
      refine ⟨?_, ?_⟩
      · rcases hx with hx | hx
        · exact List.take_subset i l hx
        · exact List.drop_subset (i + 1) l hx
      · rintro rfl
        rcases hx with hx | hx
        · exact hnotin_take hx
        · exact hnotin_drop hx
    · rintro ⟨hx, hne⟩
      rw [herase, List.mem_append]
      have hx2 : x ∈ l.take i ++ l[i] :: l.drop (i + 1) := by rw [hsplit]; exact hx
      rcases List.mem_append.mp hx2 with hmem | hmem
      · exact Or.inl hmem
      · rcases List.mem_cons.mp hmem with rfl | hmem
        · exact absurd rfl hne
        · exact Or.inr hmem

theorem create_preserves (s : TopicsState) (topic : Record) (n : Int)
    (hs : StrongInv s)
    (hid : (alGet topic "id").bind pyInt = some n)
    (hfresh : n ∉ dataIdInts s) :
    ∃ s', create_new_topic s topic = .ok s' ∧ StrongInv s' := by
  obtain ⟨h1, h2, h3, h4, h5, h6, h7, h8⟩ := hs
  have hkeyfresh : n ∉ alKeys s.topics_by_id := by
    intro hmem
    simp only [alKeys, List.mem_map] at hmem
    obtain ⟨p, hp, rfl⟩ := hmem
    obtain ⟨hpd, v, hv, hpv⟩ := h6 p hp
    refine hfresh ?_
    simp only [dataIdInts, List.mem_filterMap]
    exact ⟨p.2, hpd, by rw [hv]; exact hpv⟩
  have hidxset : alSet s.topics_by_id n s.nextRef =
      s.topics_by_id ++ [(n, s.nextRef)] := alSet_not_mem _ _ _ hkeyfresh
  have hderef_old : ∀ r, r ≠ s.nextRef →
      alGet (s.heap ++ [(s.nextRef, topic)]) r = alGet s.heap r :=
    fun r hr => alGet_append_single_ne _ _ _ _ hr
  have hderef_new : alGet (s.heap ++ [(s.nextRef, topic)]) s.nextRef = some topic := by
    rw [alGet_append, alGet_none_of_keys_lt _ _ h1]
    simp [alGet]
  refine ⟨{ heap := s.heap ++ [(s.nextRef, topic)],
            nextRef := s.nextRef + 1,
            data := s.data ++ [s.nextRef],
            topics_by_id := s.topics_by_id ++ [(n, s.nextRef)] },
    ?_, ?_, ?_, ?_, ?_, ?_, ?_, ?_, ?_⟩
  all_goals dsimp only [TopicsState.deref]
  · simp [create_new_topic, hid, hidxset]
  · intro p hp
    rcases List.mem_append.mp hp with hmem | hmem
    · have := h1 p hmem
      omega
    · simp only [List.mem_singleton] at hmem
      subst hmem
      simp
  · intro r hr
    rcases List.mem_append.mp hr with hmem | hmem
    · have := h2 r hmem
      omega
    · simp only [List.mem_singleton] at hmem
      omega
  · intro p hp
    rcases List.mem_append.mp hp with hmem | hmem
    · have := h3 p hmem
      omega
    · simp only [List.mem_singleton] at hmem
      subst hmem
      simp
  · refine List.Nodup.append h4 (by simp) ?_
    intro x hx
    have := h2 x hx
    simp only [List.mem_singleton]
    omega
  · show (alKeys (s.topics_by_id ++ [(n, s.nextRef)])).Nodup
    rw [alKeys, List.map_append]
    refine List.Nodup.append h5 (by simp) ?_
    intro x hx
    simp only [List.map_cons, List.map_nil, List.mem_singleton]
    rintro rfl
    exact hkeyfresh hx
  · intro p hp
    rcases List.mem_append.mp hp with hmem | hmem
    · obtain ⟨hpd, v, hv, hpv⟩ := h6 p hmem
      refine ⟨List.mem_append.mpr (Or.inl hpd), v, ?_, hpv⟩
      show alGet ((alGet (s.heap ++ [(s.nextRef, topic)]) p.2).getD []) "id" = some v
      rw [hderef_old p.2 (by have := h3 p hmem; omega)]
      exact hv
    · simp only [List.mem_singleton] at hmem
      subst hmem
      refine ⟨List.mem_append.mpr (Or.inr (by simp)), ?_⟩
      show ∃ v, alGet ((alGet (s.heap ++ [(s.nextRef, topic)]) s.nextRef).getD [])
          "id" = some v ∧ pyInt v = some n
      rw [hderef_new, Option.getD_some]
      cases hv : alGet topic "id" with
      | none => rw [hv] at hid; simp at hid
      | some v =>
        rw [hv] at hid
        exact ⟨v, rfl, hid⟩
  · intro r hr v hv
    rcases List.mem_append.mp hr with hmem | hmem
    · have hderef : alGet (s.heap ++ [(s.nextRef, topic)]) r = alGet s.heap r :=
        hderef_old r (by have := h2 r hmem; omega)
      rw [show ((alGet (s.heap ++ [(s.nextRef, topic)]) r).getD [] : Record)
          = s.deref r by rw [hderef]; rfl] at hv
      obtain ⟨n', hn', hidx⟩ := h7 r hmem v hv
      exact ⟨n', hn', alGet_append_left _ _ _ _ hidx⟩
    · simp only [List.mem_singleton] at hmem
      subst hmem
      rw [show ((alGet (s.heap ++ [(s.nextRef, topic)]) s.nextRef).getD [] : Record)
          = topic by rw [hderef_new]; rfl] at hv
      rw [hv] at hid
      refine ⟨n, hid, ?_⟩
      rw [alGet_append, alGet_none_of_not_mem_keys _ _ hkeyfresh]
      simp [alGet]
  · intro r1 hr1 r2 hr2 m hm1 hm2
    have hval : ∀ r, r ∈ s.data ++ [s.nextRef] →
        (alGet ((alGet (s.heap ++ [(s.nextRef, topic)]) r).getD []) "id").bind pyInt
          = some m →
        (r ∈ s.data ∧ (alGet (s.deref r) "id").bind pyInt = some m) ∨
        (r = s.nextRef ∧ m = n) := by
      intro r hr hm
      rcases List.mem_append.mp hr with hmem | hmem
      · refine Or.inl ⟨hmem, ?_⟩
        rw [show ((alGet (s.heap ++ [(s.nextRef, topic)]) r).getD [] : Record)
            = s.deref r by rw [hderef_old r (by have := h2 r hmem; omega)]; rfl] at hm
        exact hm
      · simp only [List.mem_singleton] at hmem
        subst hmem
        rw [show ((alGet (s.heap ++ [(s.nextRef, topic)]) s.nextRef).getD [] : Record)
            = topic by rw [hderef_new]; rfl] at hm
        rw [hid] at hm
        exact Or.inr ⟨rfl, (Option.some_inj.mp hm).symm⟩
    rcases hval r1 hr1 hm1 with ⟨hd1, hv1⟩ | ⟨rfl, rfl⟩
    · rcases hval r2 hr2 hm2 with ⟨hd2, hv2⟩ | ⟨rfl, rfl⟩
      · exact h8 r1 hd1 r2 hd2 m hv1 hv2
      · exfalso
        refine hfresh ?_
        simp only [dataIdInts, List.mem_filterMap]
        exact ⟨r1, hd1, hv1⟩
    · rcases hval r2 hr2 hm2 with ⟨hd2, hv2⟩ | ⟨rfl, _⟩
      · exfalso
        refine hfresh ?_
        simp only [dataIdInts, List.mem_filterMap]
        exact ⟨r2, hd2, hv2⟩
      · rfl

theorem delete_preserves (s : TopicsState) (topic_id : Int) (hs : StrongInv s) :
    ∃ s', delete_topic s topic_id = .ok s' ∧ StrongInv s' := by
  obtain ⟨h1, h2, h3, h4, h5, h6, h7, h8⟩ := hs
  cases hidx : alGet s.topics_by_id topic_id with
  | none =>
    exact ⟨s, by simp [delete_topic, hidx], h1, h2, h3, h4, h5, h6, h7, h8⟩
  | some ref =>
    obtain ⟨hrefd, v, hv, hpv⟩ := h6 (topic_id, ref) (alGet_mem hidx)
    have hne : s.deref ref ≠ [] := alGet_ne_nil hv
    have huniq : ∀ r ∈ s.data, recEquiv (s.deref r) (s.deref ref) = true → r = ref := by
      intro r hr hequiv
      have hmemv : ("id", v) ∈ s.deref ref := alGet_mem hv
      have hsame := (List.all_eq_true.mp (Bool.and_elim_right hequiv)) ("id", v) hmemv
      simp only [decide_eq_true_eq] at hsame
      rw [hv] at hsame
      exact h8 r hr ref hrefd topic_id (by rw [hsame]; exact hpv)
        (by rw [hv]; exact hpv)
    have hrefp : recEquiv (s.deref ref) (s.deref ref) = true := recEquiv_refl _
    have hfound : (s.data.findIdx? (fun r => recEquiv (s.deref r) (s.deref ref))).isSome
        = true := by
      rw [List.findIdx?_isSome, List.any_eq_true]
      exact ⟨ref, hrefd, hrefp⟩
    obtain ⟨i, hi⟩ := Option.isSome_iff_exists.mp hfound
    obtain ⟨hlen, hpi, _⟩ := List.findIdx?_eq_some_iff_getElem.mp hi
    have hgi : s.data[i] = ref :=
      huniq s.data[i] (s.data.getElem_mem hlen) hpi
    obtain ⟨hnderase, hmemiff⟩ := eraseIdx_facts s.data i hlen h4
    rw [hgi] at hmemiff
    have hne' : ({ s with topics_by_id := alErase s.topics_by_id topic_id }
        : TopicsState).deref ref ≠ [] := hne
    have hfind' : ({ s with topics_by_id := alErase s.topics_by_id topic_id }
        : TopicsState).data.findIdx?
        (fun r => recEquiv
          (({ s with topics_by_id := alErase s.topics_by_id topic_id }
            : TopicsState).deref r)
          (({ s with topics_by_id := alErase s.topics_by_id topic_id }
            : TopicsState).deref ref)) = some i := hi
    have hdel : delete_topic s topic_id =
        .ok { s with topics_by_id := alErase s.topics_by_id topic_id,
                     data := s.data.eraseIdx i } := by
      simp only [delete_topic, hidx, if_neg hne', hfind']
    refine ⟨_, hdel, ?_, ?_, ?_, ?_, ?_, ?_, ?_, ?_⟩
    all_goals dsimp only [TopicsState.deref]
    · exact h1
    · intro r hr
      exact h2 r ((hmemiff r).mp hr).1
    · intro p hp
      exact h3 p (alErase_subset _ _ p hp)
    · exact hnderase
    · exact alKeys_alErase_nodup _ _ h5
    · intro p hp
      have hpin := alErase_subset _ _ p hp
      obtain ⟨hpd, v', hv', hpv'⟩ := h6 p hpin
      have hpne : p.1 ≠ topic_id := alErase_key_ne _ _ h5 p hp
      have hp2ne : p.2 ≠ ref := by
        rintro rfl
        rw [hv] at hv'
        have hveq : v = v' := Option.some_inj.mp hv'
        subst hveq
        rw [hpv] at hpv'
        exact hpne (Option.some_inj.mp hpv').symm
      exact ⟨(hmemiff p.2).mpr ⟨hpd, hp2ne⟩, v', hv', hpv'⟩
    · intro r hr v' hv'
      have hrd := (hmemiff r).mp hr
      obtain ⟨n', hn', hidx'⟩ := h7 r hrd.1 v' hv'
      refine ⟨n', hn', ?_⟩
      have hnne : n' ≠ topic_id := by
        rintro rfl
        rw [hidx] at hidx'
        exact hrd.2 (Option.some_inj.mp hidx').symm
      rw [alGet_alErase_ne _ _ _ hnne]
      exact hidx'
    · intro r1 hr1 r2 hr2 m hm1 hm2
      exact h8 r1 ((hmemiff r1).mp hr1).1 r2 ((hmemiff r2).mp hr2).1 m hm1 hm2

theorem strongInv_claimInv (s : TopicsState) (hs : StrongInv s) :
    claimInvB s = true := by
  obtain ⟨h1, h2, h3, h4, h5, h6, h7, h8⟩ := hs
  rw [claimInvB, Bool.and_eq_true]
  constructor
  · rw [List.all_eq_true]
    intro p hp
    rw [List.any_eq_true]
    exact ⟨p.2, (h6 p hp).1, recEquiv_refl _⟩
  · rw [List.all_eq_true]
    intro r hr
    cases hvr : alGet (s.deref r) "id" with
    | none => simp only [hvr]
    | some v =>
      obtain ⟨n, hn, hidxr⟩ := h7 r hr v hvr
      simp only [hvr, hn, hidxr]
      exact recEquiv_refl _

theorem runOps_preserves (ops : List TopicsOp) : ∀ (s : TopicsState),
    StrongInv s → safeRun s ops = true →
    ∃ s', runOps s ops = .ok s' ∧ StrongInv s' := by
  induction ops with
  | nil => exact fun s hs _ => ⟨s, rfl, hs⟩
  | cons op rest ih =>
    intro s hs hsafe
    rw [safeRun, Bool.and_eq_true] at hsafe
    obtain ⟨hop, hrest⟩ := hsafe
    cases op with
    | create topic =>
      cases hid : (alGet topic "id").bind pyInt with
      | none => simp [opSafe, hid] at hop
      | some n =>
        have hfresh : n ∉ dataIdInts s := by
          simp only [opSafe, hid, decide_eq_true_eq] at hop
          exact hop
        obtain ⟨s1, hok, hinv1⟩ := create_preserves s topic n hs hid hfresh
        have hstate : (applyOp s (.create topic)).state = s1 := by
          rw [show applyOp s (TopicsOp.create topic) = .ok s1 from hok]
          rfl
        rw [hstate] at hrest
        obtain ⟨s', hrun, hinv'⟩ := ih s1 hinv1 hrest
        exact ⟨s', by simp [runOps, applyOp, hok, hrun], hinv'⟩
    | delete tid =>
      obtain ⟨s1, hok, hinv1⟩ := delete_preserves s tid hs
      have hstate : (applyOp s (.delete tid)).state = s1 := by
        rw [show applyOp s (TopicsOp.delete tid) = .ok s1 from hok]
        rfl
      rw [hstate] at hrest
      obtain ⟨s', hrun, hinv'⟩ := ih s1 hinv1 hrest
      exact ⟨s', by simp [runOps, applyOp, hok, hrun], hinv'⟩

/-- Claim C2 (amended): starting from a consistently loaded state (the
strengthened invariant `StrongInv`), every sequence of `create_new_topic`
operations with controller-style fresh integer ids and `delete_topic`
operations returns normally and preserves the claimed consistency: every
indexed ID maps to a record present in the primary list and every
listed record with an id is reachable through the index.  The
counterexample shows `update_topic` with a distinct record object breaks
exactly this consistency, so updates cannot be admitted. -/
theorem claim2_index_consistency (s : TopicsState) (ops : List TopicsOp)
    (hs : StrongInv s) (hsafe : safeRun s ops = true) :
    ∃ s', runOps s ops = .ok s' ∧ claimInvB s' = true := by
  obtain ⟨s', hrun, hinv⟩ := runOps_preserves ops s hs hsafe
  exact ⟨s', hrun, strongInv_claimInv s' hinv⟩

/-- Witness for the amended C2: one fresh create and one delete on the
concrete consistent store. -/
theorem claim2_index_consistency_witness :
    ∃ s', runOps exC2Start
        [.create [("id", .vInt 5), ("t", .vStr "new")], .delete 1] = .ok s' ∧
      claimInvB s' = true := by
  refine claim2_index_consistency exC2Start
    [.create [("id", .vInt 5), ("t", .vStr "new")], .delete 1] ?_ (by decide)
  refine ⟨by decide, by decide, by decide, by decide, by decide, ?_, ?_, ?_⟩
  · intro p hp
    have hp0 : p = ((1 : Int), (0 : Nat)) := List.mem_singleton.mp hp
    subst hp0
    exact ⟨by decide, .vInt 1, by decide, by decide⟩
  · intro r hr v hv
    have hr0 : r = 0 := List.mem_singleton.mp hr
    subst hr0
    have hv0 : alGet (exC2Start.deref 0) "id" = some (.vInt 1) := by decide
    rw [hv0] at hv
    have hveq : FieldValue.vInt 1 = v := Option.some_inj.mp hv
    subst hveq
    exact ⟨1, by decide, by decide⟩
  · intro r1 hr1 r2 hr2 n hn1 hn2
    have e1 : r1 = 0 := List.mem_singleton.mp hr1
    have e2 : r2 = 0 := List.mem_singleton.mp hr2
    rw [e1, e2]

end Tuido
